import Mathlib

/-! Alignable composite hierarchy.

A shallow embedding of `Alignment/CommonAlignment/src/AlignableComposite.cc`:
a tree of rigid bodies that is moved, rotated and annotated with position
errors.  Scalars are exact rationals.
-/

namespace Alignment

/-- Scalar type of the geometry (the source uses `float`; here exact arithmetic). -/
abbrev Scalar := ℚ

/-! ## Vectors and rotations (collaborators of the composite) -/

/-- Modelled from the spec: the 3-vector type behind `GlobalVector`, `GlobalPoint`
and `LocalVector` (their headers are not part of the sources); it has the
accessors `x()`, `y()`, `z()`. -/
@[ext]
structure Vec3 where
  x : Scalar
  y : Scalar
  z : Scalar
deriving DecidableEq, Repr

namespace Vec3

instance : Zero Vec3 := ⟨⟨0, 0, 0⟩⟩
instance : Add Vec3 := ⟨fun a b => ⟨a.x + b.x, a.y + b.y, a.z + b.z⟩⟩
instance : Neg Vec3 := ⟨fun a => ⟨-a.x, -a.y, -a.z⟩⟩
instance : Sub Vec3 := ⟨fun a b => ⟨a.x - b.x, a.y - b.y, a.z - b.z⟩⟩
/-- Division of a vector by a scalar, `v / s` of the source. -/
instance : HDiv Vec3 Scalar Vec3 := ⟨fun a s => ⟨a.x / s, a.y / s, a.z / s⟩⟩

/-- Multiplication of a vector by a scalar. -/
instance : SMul Scalar Vec3 := ⟨fun s a => ⟨s * a.x, s * a.y, s * a.z⟩⟩

@[simp] theorem zero_x : (0 : Vec3).x = 0 := rfl
@[simp] theorem zero_y : (0 : Vec3).y = 0 := rfl
@[simp] theorem zero_z : (0 : Vec3).z = 0 := rfl
@[simp] theorem add_x (a b : Vec3) : (a + b).x = a.x + b.x := rfl
@[simp] theorem add_y (a b : Vec3) : (a + b).y = a.y + b.y := rfl
@[simp] theorem add_z (a b : Vec3) : (a + b).z = a.z + b.z := rfl
@[simp] theorem neg_x (a : Vec3) : (-a).x = -a.x := rfl
@[simp] theorem neg_y (a : Vec3) : (-a).y = -a.y := rfl
@[simp] theorem neg_z (a : Vec3) : (-a).z = -a.z := rfl
@[simp] theorem sub_x (a b : Vec3) : (a - b).x = a.x - b.x := rfl
@[simp] theorem sub_y (a b : Vec3) : (a - b).y = a.y - b.y := rfl
@[simp] theorem sub_z (a b : Vec3) : (a - b).z = a.z - b.z := rfl
@[simp] theorem div_x (a : Vec3) (s : Scalar) : (a / s).x = a.x / s := rfl
@[simp] theorem div_y (a : Vec3) (s : Scalar) : (a / s).y = a.y / s := rfl
@[simp] theorem div_z (a : Vec3) (s : Scalar) : (a / s).z = a.z / s := rfl
@[simp] theorem smul_x (s : Scalar) (a : Vec3) : (s • a).x = s * a.x := rfl
@[simp] theorem smul_y (s : Scalar) (a : Vec3) : (s • a).y = s * a.y := rfl
@[simp] theorem smul_z (s : Scalar) (a : Vec3) : (s • a).z = s * a.z := rfl

instance : AddCommGroup Vec3 where
  add_assoc a b c := by ext <;> simp [add_assoc]
  zero_add a := by ext <;> simp
  add_zero a := by ext <;> simp
  add_comm a b := by ext <;> simp [add_comm]
  neg_add_cancel a := by ext <;> simp
  sub_eq_add_neg a b := by ext <;> simp [sub_eq_add_neg]
  nsmul := nsmulRec
  zsmul := zsmulRec

end Vec3

/-- Modelled from the spec: the 3×3 rotation matrix type `RotationType`
(`TkRotation`, whose header is not part of the sources), with entries named
row-column. -/
@[ext]
structure Rotation where
  xx : Scalar
  xy : Scalar
  xz : Scalar
  yx : Scalar
  yy : Scalar
  yz : Scalar
  zx : Scalar
  zy : Scalar
  zz : Scalar
deriving DecidableEq, Repr

namespace Rotation

/-- The identity rotation. -/
instance : One Rotation := ⟨⟨1, 0, 0, 0, 1, 0, 0, 0, 1⟩⟩

/-- Modelled from the spec: `a * b`, the composition of two rotations (matrix product). -/
instance : Mul Rotation := ⟨fun a b =>
  ⟨a.xx * b.xx + a.xy * b.yx + a.xz * b.zx,
   a.xx * b.xy + a.xy * b.yy + a.xz * b.zy,
   a.xx * b.xz + a.xy * b.yz + a.xz * b.zz,
   a.yx * b.xx + a.yy * b.yx + a.yz * b.zx,
   a.yx * b.xy + a.yy * b.yy + a.yz * b.zy,
   a.yx * b.xz + a.yy * b.yz + a.yz * b.zz,
   a.zx * b.xx + a.zy * b.yx + a.zz * b.zx,
   a.zx * b.xy + a.zy * b.yy + a.zz * b.zy,
   a.zx * b.xz + a.zy * b.yz + a.zz * b.zz⟩⟩

/-- The transposed matrix, which is the inverse of an orthonormal one. -/
def transposed (r : Rotation) : Rotation :=
  ⟨r.xx, r.yx, r.zx, r.xy, r.yy, r.zy, r.xz, r.yz, r.zz⟩

/-- Modelled from the spec: `rotation.multiplyInverse(v)`, the inverse of the
rotation applied to a vector; a rotation is orthonormal, its inverse is its
transpose. -/
def multiplyInverse (r : Rotation) (v : Vec3) : Vec3 :=
  ⟨r.xx * v.x + r.yx * v.y + r.zx * v.z,
   r.xy * v.x + r.yy * v.y + r.zy * v.z,
   r.xz * v.x + r.yz * v.y + r.zz * v.z⟩

/-- A matrix is orthonormal when its transpose is a two-sided inverse. -/
def Orthonormal (r : Rotation) : Prop :=
  r.transposed * r = 1 ∧ r * r.transposed = 1

end Rotation

/-! ## The surface and the node data -/

/-- Modelled from the spec: the surface owned by a node (`theSurface`, class
`AlignableSurface`, not part of the sources), with cached `position()` and
`rotation()`. -/
structure Surface where
  position : Vec3
  rotation : Rotation
deriving DecidableEq, Repr

namespace Surface

/-- Modelled from the spec: `surface.move(v)` adds its argument to the position. -/
def move (s : Surface) (v : Vec3) : Surface :=
  { s with position := s.position + v }

/-- Modelled from the spec: `surface.rotate(r)` composes the orientation with
its argument and leaves the position alone. -/
def rotate (s : Surface) (r : Rotation) : Surface :=
  { s with rotation := s.rotation * r }

/-- Modelled from the spec: `surface.toGlobal(localVector)`, the conversion of a
vector given in the surface's frame to the global frame (the rotation of a
surface takes global to local coordinates). -/
def toGlobal (s : Surface) (v : Vec3) : Vec3 :=
  s.rotation.multiplyInverse v

end Surface

/-- Modelled from the spec: the state every node inherits from the base class
`Alignable` (its header is not part of the sources): the integer id, the owned
surface, the cumulative displacement and rotation, and the back-reference to
the mother, kept as the mother's id. -/
structure AlignableBase where
  theId : Nat
  theSurface : Surface
  theDisplacement : Vec3
  theRotation : Rotation
  theMother : Option Nat
deriving DecidableEq, Repr

namespace AlignableBase

/-- Modelled from the spec: `addDisplacement` records the cumulative displacement. -/
def addDisplacement (b : AlignableBase) (d : Vec3) : AlignableBase :=
  { b with theDisplacement := b.theDisplacement + d }

/-- Modelled from the spec: `addRotation` records the rotation on the node. -/
def addRotation (b : AlignableBase) (r : Rotation) : AlignableBase :=
  { b with theRotation := b.theRotation * r }

/-- The statement `theSurface.move( v )`. -/
def moveSurface (b : AlignableBase) (v : Vec3) : AlignableBase :=
  { b with theSurface := b.theSurface.move v }

/-- The statement `theSurface.rotate( r )`. -/
def rotateSurface (b : AlignableBase) (r : Rotation) : AlignableBase :=
  { b with theSurface := b.theSurface.rotate r }

/-- The call `setMother( m )`. -/
def setMother (b : AlignableBase) (m : Nat) : AlignableBase :=
  { b with theMother := some m }

end AlignableBase

/-- The alignable tree.  `E` is the position-error type
(`AlignmentPositionError`, not part of the sources).  A leaf is a terminal
detector unit carrying its position error; a composite carries its structure
type and the ordered sequence `theComponents` of the children it owns. -/
inductive Alignable (E : Type) where
  | detUnit (base : AlignableBase) (ape : E)
  | composite (base : AlignableBase) (theStructureType : Nat)
      (theComponents : List (Alignable E))

namespace Alignable

variable {E : Type}

/-- The base-class state of a node. -/
def base : Alignable E → AlignableBase
  | detUnit b _ => b
  | composite b _ _ => b

/-- Accessor `components()`: the direct children (a leaf has none). -/
def components : Alignable E → List (Alignable E)
  | detUnit _ _ => []
  | composite _ _ cs => cs

/-- Accessor `globalPosition()`: the position of the owned surface. -/
def globalPosition (a : Alignable E) : Vec3 := a.base.theSurface.position

/-- Accessor `globalRotation()`: the rotation of the owned surface. -/
def globalRotation (a : Alignable E) : Rotation := a.base.theSurface.rotation

/-- The call `setMother( m )` on a node. -/
def setMother : Alignable E → Nat → Alignable E
  | detUnit b e, m => detUnit (b.setMother m) e
  | composite b st cs, m => composite (b.setMother m) st cs

mutual
/-- `AlignableComposite::move`: move every component by the displacement, then
record the displacement and move the own surface.  The leaf case is modelled
from the spec (a leaf moves its surface and records the displacement). -/
def move : Alignable E → Vec3 → Alignable E
  | detUnit b e, d => detUnit ((b.addDisplacement d).moveSurface d) e
  | composite b st cs, d =>
      composite ((b.addDisplacement d).moveSurface d) st (moveComponents cs d)
/-- The loop of `move` over the components. -/
def moveComponents : List (Alignable E) → Vec3 → List (Alignable E)
  | [], _ => []
  | c :: cs, d => move c d :: moveComponents cs d
end

mutual
/-- Number of nodes of a subtree (the node itself included); the measure along
which the rotation recursion descends. -/
def numNodes : Alignable E → Nat
  | detUnit _ _ => 1
  | composite _ _ cs => 1 + numNodesList cs
/-- Number of nodes of a sequence of subtrees. -/
def numNodesList : List (Alignable E) → Nat
  | [] => 0
  | c :: cs => numNodes c + numNodesList cs
end

mutual
/-- Moving a subtree keeps its number of nodes. -/
theorem numNodes_move (a : Alignable E) (d : Vec3) : numNodes (move a d) = numNodes a := by
  cases a with
  | detUnit b e => simp [move, numNodes]
  | composite b st cs => simp [move, numNodes, numNodesList_moveComponents cs d]
/-- Moving a sequence of subtrees keeps its number of nodes. -/
theorem numNodesList_moveComponents (cs : List (Alignable E)) (d : Vec3) :
    numNodesList (moveComponents cs d) = numNodesList cs := by
  cases cs with
  | nil => simp [moveComponents, numNodesList]
  | cons c cs =>
    simp [moveComponents, numNodesList, numNodes_move c d, numNodesList_moveComponents cs d]
end

/-- Every subtree has at least one node. -/
theorem numNodes_pos (a : Alignable E) : 0 < numNodes a := by
  cases a <;> simp [numNodes]

mutual
/-- `AlignableComposite::rotateInGlobalFrame`: with `myPosition` the composite's
own position, every component is moved by
`rotation.multiplyInverse(lpvgf) - lpvgf`, where `lpvgf` is its position
relative to `myPosition`, and then rotated itself; at the end the rotation is
recorded and the own surface rotated.  The leaf case is modelled from the spec
(a leaf changes its orientation only). -/
def rotateInGlobalFrame : Alignable E → Rotation → Alignable E
  | detUnit b e, rotation => detUnit ((b.addRotation rotation).rotateSurface rotation) e
  | composite b st cs, rotation =>
      composite ((b.addRotation rotation).rotateSurface rotation) st
        (rotateComponents cs b.theSurface.position rotation)
termination_by a => 2 * numNodes a
decreasing_by
  simp only [numNodes]
  omega
/-- The loop of `rotateInGlobalFrame` over the components. -/
def rotateComponents : List (Alignable E) → Vec3 → Rotation → List (Alignable E)
  | [], _, _ => []
  | c :: cs, myPosition, rotation =>
      let lpvgf := c.globalPosition - myPosition
      let moveVector := rotation.multiplyInverse lpvgf - lpvgf
      rotateInGlobalFrame (move c moveVector) rotation :: rotateComponents cs myPosition rotation
termination_by cs => 2 * numNodesList cs + 1
decreasing_by
  · simp only [numNodesList, numNodes_move]
    omega
  · simp only [numNodesList]
    have := numNodes_pos c
    omega
end

mutual
/-- `AlignableComposite::setAlignmentPositionError`: a composite has no error of
its own, the error is propagated down to every component.  The leaf case is
modelled from the spec (a leaf overwrites its error). -/
def setAlignmentPositionError : Alignable E → E → Alignable E
  | detUnit b _, ape => detUnit b ape
  | composite b st cs, ape => composite b st (setAlignmentPositionErrorComponents cs ape)
/-- The loop of `setAlignmentPositionError` over the components. -/
def setAlignmentPositionErrorComponents : List (Alignable E) → E → List (Alignable E)
  | [], _ => []
  | c :: cs, ape =>
      setAlignmentPositionError c ape :: setAlignmentPositionErrorComponents cs ape
end

mutual
/-- `AlignableComposite::addAlignmentPositionError`: the error is added on every
component.  The leaf case is modelled from the spec (a leaf adds the error to
its existing error value). -/
def addAlignmentPositionError [Add E] : Alignable E → E → Alignable E
  | detUnit b e, ape => detUnit b (e + ape)
  | composite b st cs, ape => composite b st (addAlignmentPositionErrorComponents cs ape)
/-- The loop of `addAlignmentPositionError` over the components. -/
def addAlignmentPositionErrorComponents [Add E] :
    List (Alignable E) → E → List (Alignable E)
  | [], _ => []
  | c :: cs, ape =>
      addAlignmentPositionError c ape :: addAlignmentPositionErrorComponents cs ape
end

mutual
/-- `AlignableComposite::recursiveComponents`: nothing is appended when there
is at most one component; otherwise every component is appended, each followed
by its own recursive components.  A leaf appends nothing (modelled from the
spec). -/
def recursiveComponents : Alignable E → List (Alignable E) → List (Alignable E)
  | detUnit _ _, result => result
  | composite _ _ cs, result =>
      if cs.length ≤ 1 then result else recursiveComponentsLoop cs result
/-- The loop of `recursiveComponents` over the components. -/
def recursiveComponentsLoop : List (Alignable E) → List (Alignable E) → List (Alignable E)
  | [], result => result
  | c :: cs, result => recursiveComponentsLoop cs (recursiveComponents c (result ++ [c]))
end

/-- The node reached from `a` by following a path of child indices (the empty
path is `a` itself); `none` when the path leaves the tree. -/
def nodeAt : Alignable E → List Nat → Option (Alignable E)
  | a, [] => some a
  | a, i :: path =>
      match a.components[i]? with
      | some c => nodeAt c path
      | none => none

/-- The position error stored on a node: a leaf has one, a composite has none. -/
def positionError : Alignable E → Option E
  | detUnit _ e => some e
  | composite _ _ _ => none

end Alignable

/-- The failures of an operation of the composite. -/
inductive Failure where
  /-- The exception `cms::Exception("LogicError")` thrown for an index out of range. -/
  | logicError (index : Int)
  /-- An access to the component vector outside its bounds. -/
  | outOfBounds (index : Int)
deriving DecidableEq, Repr

/-- The state of an `AlignableComposite` object: the base-class state, the
structure type and the owned components. -/
structure AlignableComposite (E : Type) where
  base : AlignableBase
  theStructureType : Nat
  theComponents : List (Alignable E)

namespace AlignableComposite

variable {E : Type}

/-- The composite as a node of the tree. -/
def toAlignable (self : AlignableComposite E) : Alignable E :=
  .composite self.base self.theStructureType self.theComponents

/-- Accessor `globalPosition()` of the composite. -/
def globalPosition (self : AlignableComposite E) : Vec3 := self.base.theSurface.position

/-- Accessor `globalRotation()` of the composite. -/
def globalRotation (self : AlignableComposite E) : Rotation := self.base.theSurface.rotation

/-- Accessor `surface()` of the composite. -/
def surface (self : AlignableComposite E) : Surface := self.base.theSurface

/-- Modelled from the spec: `size()`, the number of direct components, a signed
`int` (declared in the header, which is not part of the sources). -/
def size (self : AlignableComposite E) : Int := self.theComponents.length

/-- `AlignableComposite::addComponent`: set the mother of the new component,
append it, and move the own surface by
`( ali->globalPosition() - globalPosition() ) / theComponents.size()`. -/
def addComponent (self : AlignableComposite E) (ali : Alignable E) : AlignableComposite E :=
  let ali := ali.setMother self.base.theId
  let theComponents := self.theComponents ++ [ali]
  { self with
    theComponents := theComponents
    base := self.base.moveSurface
      ((ali.globalPosition - self.globalPosition) / (theComponents.length : Scalar)) }

/-- `AlignableComposite::moveComponentsLocal`: move the whole composite by the
global equivalent of a local displacement. -/
def moveComponentsLocal (self : AlignableComposite E) (localDisplacement : Vec3) : Alignable E :=
  self.toAlignable.move (self.surface.toGlobal localDisplacement)

/-- `AlignableComposite::moveComponentLocal`: throw the logic error when
`i >= size()`, otherwise move component `i` by the global equivalent, in the
composite's own frame, of the local displacement.  The result is the outcome
of the call together with the state of the composite after it. -/
def moveComponentLocal (self : AlignableComposite E) (i : Int) (localDisplacement : Vec3) :
    Except Failure Unit × AlignableComposite E :=
  if i ≥ self.size then (.error (.logicError i), self)
  else
    match i with
    | .ofNat n =>
        match self.theComponents[n]? with
        | some c =>
            (.ok (),
              { self with
                theComponents :=
                  self.theComponents.set n (c.move (self.surface.toGlobal localDisplacement)) })
        | none => (.error (.outOfBounds i), self)
    | .negSucc _ => (.error (.outOfBounds i), self)

end AlignableComposite

/-! ## Position errors from a rotation -/

namespace Rotation

/-- Modelled from the spec: `g.multiplyInverse(m)` for a matrix argument, the
inverse of `g` (its transpose) composed with `m`; part of `TkRotation`, whose
header is not part of the sources. -/
def multiplyInverseRot (g m : Rotation) : Rotation := g.transposed * m

end Rotation

namespace Alignable

variable {E : Type}

mutual
/-- Adding a position error to a subtree keeps its number of nodes. -/
theorem numNodes_addAlignmentPositionError [Add E] (a : Alignable E) (e : E) :
    numNodes (addAlignmentPositionError a e) = numNodes a := by
  cases a with
  | detUnit b e0 => simp [addAlignmentPositionError, numNodes]
  | composite b st cs =>
    simp [addAlignmentPositionError, numNodes, numNodesList_addAlignmentPositionError cs e]
/-- Adding a position error to a sequence of subtrees keeps its number of nodes. -/
theorem numNodesList_addAlignmentPositionError [Add E] (cs : List (Alignable E)) (e : E) :
    numNodesList (addAlignmentPositionErrorComponents cs e) = numNodesList cs := by
  cases cs with
  | nil => simp [addAlignmentPositionErrorComponents, numNodesList]
  | cons c cs =>
    simp [addAlignmentPositionErrorComponents, numNodesList,
      numNodes_addAlignmentPositionError c e, numNodesList_addAlignmentPositionError cs e]
end

mutual
/-- `AlignableComposite::addAlignmentPositionErrorFromRotation`: with
`myPosition` the composite's own position, every component receives, through
`addAlignmentPositionError`, the error built from the x, y, z of
`rotation.multiplyInverse(lpvgf) - lpvgf`, where `lpvgf` is its position
relative to `myPosition`, and is then asked for its own errors from the
rotation.  Two parts are not part of the sources and are parameters: `ape`, the
constructor `AlignmentPositionError(dx, dy, dz)`, and `detUnitRule`, what a
leaf's own `addAlignmentPositionErrorFromRotation` makes of its error (by the
spec no rotation is performed, so a leaf can change its error only). -/
def addAlignmentPositionErrorFromRotation [Add E] (ape : Scalar → Scalar → Scalar → E)
    (detUnitRule : AlignableBase → E → Rotation → E) : Alignable E → Rotation → Alignable E
  | detUnit b e, rotation => detUnit b (detUnitRule b e rotation)
  | composite b st cs, rotation =>
      composite b st
        (addAlignmentPositionErrorFromRotationComponents ape detUnitRule cs
          b.theSurface.position rotation)
termination_by a => 2 * numNodes a
decreasing_by
  simp only [numNodes]
  omega
/-- The loop of `addAlignmentPositionErrorFromRotation` over the components. -/
def addAlignmentPositionErrorFromRotationComponents [Add E]
    (ape : Scalar → Scalar → Scalar → E) (detUnitRule : AlignableBase → E → Rotation → E) :
    List (Alignable E) → Vec3 → Rotation → List (Alignable E)
  | [], _, _ => []
  | c :: cs, myPosition, rotation =>
      let lpvgf := c.globalPosition - myPosition
      let moveVector := rotation.multiplyInverse lpvgf - lpvgf
      addAlignmentPositionErrorFromRotation ape detUnitRule
          (addAlignmentPositionError c (ape moveVector.x moveVector.y moveVector.z)) rotation
        :: addAlignmentPositionErrorFromRotationComponents ape detUnitRule cs myPosition rotation
termination_by cs => 2 * numNodesList cs + 1
decreasing_by
  · simp only [numNodesList, numNodes_addAlignmentPositionError]
    omega
  · simp only [numNodesList]
    have := numNodes_pos c
    omega
end

/-- The displacement a rotation about the centre `p` gives to a point `q`:
`rotation.multiplyInverse(q - p) - (q - p)`. -/
def rotationDisplacement (rotation : Rotation) (p q : Vec3) : Vec3 :=
  rotation.multiplyInverse (q - p) - (q - p)

/-- The errors `APE(d_1), ..., APE(d_m)` along the chain of nodes that a path
follows from `a`, where `d_j` is the displacement the rotation about the
`(j-1)`-th node of the chain gives to the `j`-th. -/
def chainErrors (ape : Scalar → Scalar → Scalar → E) (rotation : Rotation) :
    Alignable E → List Nat → List E
  | _, [] => []
  | a, i :: path =>
      match a.components[i]? with
      | some c =>
          ape (rotationDisplacement rotation a.globalPosition c.globalPosition).x
              (rotationDisplacement rotation a.globalPosition c.globalPosition).y
              (rotationDisplacement rotation a.globalPosition c.globalPosition).z
            :: chainErrors ape rotation c path
      | none => []

end Alignable

namespace AlignableComposite

variable {E : Type}

/-- `AlignableComposite::addAlignmentPositionErrorFromLocalRotation`: the
rotation given in the composite's local frame is turned into
`globalRotation().multiplyInverse(rot*globalRotation())` and handed to the
global-frame version. -/
def addAlignmentPositionErrorFromLocalRotation [Add E] (ape : Scalar → Scalar → Scalar → E)
    (detUnitRule : AlignableBase → E → Rotation → E) (self : AlignableComposite E)
    (rot : Rotation) : Alignable E :=
  let globalRot := self.globalRotation.multiplyInverseRot (rot * self.globalRotation)
  self.toAlignable.addAlignmentPositionErrorFromRotation ape detUnitRule globalRot

end AlignableComposite

/-! ## Record export -/

/-- Modelled from the spec: an alignment record, the (id, position, orientation)
of a node (`AlignTransform`, not part of the sources). -/
structure AlignTransform where
  rawId : Nat
  translation : Vec3
  rotation : Rotation
deriving DecidableEq, Repr

/-- Modelled from the spec: an alignment-error record, the (id, error) of a
node (`AlignTransformError`, not part of the sources). -/
structure AlignTransformError (E : Type) where
  rawId : Nat
  error : E

namespace Alignable

variable {E : Type}

mutual
/-- `AlignableComposite::alignments`: a fresh collection that receives, for
every component in order, a copy of the component's own `alignments()`.  The
result is the collection together with the tree after the call.  The leaf case
is modelled from the spec (a leaf yields exactly one record describing its own
position and orientation and is not modified). -/
def alignments : Alignable E → List AlignTransform × Alignable E
  | detUnit b e =>
      ([⟨b.theId, b.theSurface.position, b.theSurface.rotation⟩], detUnit b e)
  | composite b st cs =>
      ((alignmentsComponents cs []).1, composite b st (alignmentsComponents cs []).2)
/-- The loop of `alignments` over the components: `m_align` is the collection
built so far. -/
def alignmentsComponents :
    List (Alignable E) → List AlignTransform → List AlignTransform × List (Alignable E)
  | [], m_align => (m_align, [])
  | c :: cs, m_align =>
      ((alignmentsComponents cs (m_align ++ (alignments c).1)).1,
        (alignments c).2 :: (alignmentsComponents cs (m_align ++ (alignments c).1)).2)
end

mutual
/-- `AlignableComposite::alignmentErrors`: a fresh collection that receives,
for every component in order, a copy of the component's own
`alignmentErrors()`.  The result is the collection together with the tree after
the call.  The leaf case is modelled from the spec (a leaf yields exactly one
record with its error and is not modified). -/
def alignmentErrors : Alignable E → List (AlignTransformError E) × Alignable E
  | detUnit b e => ([⟨b.theId, e⟩], detUnit b e)
  | composite b st cs =>
      ((alignmentErrorsComponents cs []).1, composite b st (alignmentErrorsComponents cs []).2)
/-- The loop of `alignmentErrors` over the components: `m_alignError` is the
collection built so far. -/
def alignmentErrorsComponents :
    List (Alignable E) → List (AlignTransformError E)
      → List (AlignTransformError E) × List (Alignable E)
  | [], m_alignError => (m_alignError, [])
  | c :: cs, m_alignError =>
      ((alignmentErrorsComponents cs (m_alignError ++ (alignmentErrors c).1)).1,
        (alignmentErrors c).2
          :: (alignmentErrorsComponents cs (m_alignError ++ (alignmentErrors c).1)).2)
end

/-! ## Notions used to state the properties -/

mutual
/-- The leaves of a subtree, from left to right. -/
def leaves : Alignable E → List (Alignable E)
  | detUnit b e => [detUnit b e]
  | composite _ _ cs => leavesList cs
/-- The leaves of a sequence of subtrees, from left to right. -/
def leavesList : List (Alignable E) → List (Alignable E)
  | [] => []
  | c :: cs => leaves c ++ leavesList cs
end

mutual
/-- The nodes of a subtree in depth-first preorder, the root first. -/
def preorder : Alignable E → List (Alignable E)
  | detUnit b e => [detUnit b e]
  | composite b st cs => composite b st cs :: preorderList cs
/-- The nodes of a sequence of subtrees in depth-first preorder. -/
def preorderList : List (Alignable E) → List (Alignable E)
  | [] => []
  | c :: cs => preorder c ++ preorderList cs
end

/-- The proper descendants of a node in depth-first preorder. -/
def descendants (a : Alignable E) : List (Alignable E) := preorderList a.components

mutual
/-- No composite of the subtree has exactly one component. -/
def noSingleComponent : Alignable E → Bool
  | detUnit _ _ => true
  | composite _ _ cs => cs.length != 1 && noSingleComponentList cs
/-- No composite of a sequence of subtrees has exactly one component. -/
def noSingleComponentList : List (Alignable E) → Bool
  | [] => true
  | c :: cs => noSingleComponent c && noSingleComponentList cs
end

/-- The record a leaf exports through `alignments()`. -/
def alignTransform (a : Alignable E) : AlignTransform :=
  ⟨a.base.theId, a.globalPosition, a.globalRotation⟩

/-- The centroid property of a node: it has components and its global position
is the arithmetic mean of their global positions. -/
def IsCentroid (a : Alignable E) : Prop :=
  a.components ≠ [] ∧
    a.globalPosition
      = (a.components.map globalPosition).sum / (a.components.length : Scalar)

end Alignable

end Alignment

/-! ## The expression evaluator: preparation of expressions

A shallow embedding of `ClhepEvaluator::prepare` and `ClhepEvaluator::throwex`
of `DetectorDescription/ExprAlgo/src/ClhepEvaluator.cc`.  Strings are lists of
characters. -/

namespace ClhepEvaluator

/-- The ways a call can go wrong. -/
inductive Failure where
  /-- The exception `DDException` with its message. -/
  | ddException (what : List Char)
  /-- An access to the vector `hasNs` outside its bounds. -/
  | outOfBounds (index : Nat)
deriving DecidableEq, Repr

/-- The separator between namespace and name, `sep("___")`. -/
def sep : List Char := ['_', '_', '_']

/-- `ClhepEvaluator::throwex`: the exception built from the reason, the
namespace, the name, the expression and the part of the expression before
position `idx`. -/
def throwex (ns name expr reason : List Char) (idx : Nat) : Failure :=
  .ddException
    ("ClhepEvaluator ERROR: ".toList ++ reason ++ "\n".toList
      ++ " nmspace=".toList ++ ns
      ++ "\n varname=".toList ++ name
      ++ "\n exp=".toList ++ expr
      ++ "\n  at=".toList ++ expr.take idx)

/-- The variables of pass 1 of `prepare`. -/
structure Scan where
  insideBracket : Bool
  nsFound : Bool
  varCount : Nat
  hasNs : List Nat
deriving DecidableEq, Repr

/-- The body of the `switch` of pass 1 on the character at position `idx`. -/
def pass1Step (ns name exprValue : List Char) (s : Scan) (c : Char) (idx : Nat) :
    Except Failure Scan :=
  if c = '[' then
    if s.nsFound || s.insideBracket then
      .error (throwex ns name exprValue
        "found a ':' outside '[..]' , or too many '[' !".toList idx)
    else .ok { s with insideBracket := true, varCount := s.varCount + 1 }
  else if c = ']' then
    if !s.insideBracket then
      .error (throwex ns name exprValue "too many ']' !".toList idx)
    else if s.nsFound then
      .ok { s with insideBracket := false, nsFound := false, hasNs := s.hasNs ++ [1] }
    else .ok { s with insideBracket := false, hasNs := s.hasNs ++ [0] }
  else if c = ':' then
    if !s.insideBracket || s.nsFound then
      .error (throwex ns name exprValue
        "found a ':' outside '[..]' , or multiple ':' inside '[..]'".toList idx)
    else .ok { s with nsFound := true }
  else .ok s

/-- The loop `while(idx<sz)` of pass 1 over the characters from position `idx` on. -/
def pass1Loop (ns name exprValue : List Char) : List Char → Nat → Scan → Except Failure Scan
  | [], _, s => .ok s
  | c :: cs, idx, s =>
      match pass1Step ns name exprValue s c idx with
      | .ok s2 => pass1Loop ns name exprValue cs (idx + 1) s2
      | .error f => .error f

/-- Pass 1 of `prepare`: the scan from `hasNs(1)`, and the check after it that
every bracket is closed. -/
def pass1 (ns name exprValue : List Char) : Except Failure Scan :=
  match pass1Loop ns name exprValue exprValue 0 ⟨false, false, 0, [0]⟩ with
  | .ok s =>
      if s.insideBracket || s.nsFound then
        .error (throwex ns name exprValue
          "'[..]' not closed , or ':' outside of '[..]'".toList exprValue.length)
      else .ok s
  | .error f => .error f

/-- Pass 2 of `prepare`: the brackets are removed, the namespace and the
separator are inserted at a `[` whose variable has no namespace, a `:` becomes
the separator and every other character is appended to `valResult`. -/
def pass2Loop (ns : List Char) (hasNs : List Nat) :
    List Char → Nat → List Char → Except Failure (List Char)
  | [], _, valResult => .ok valResult
  | c :: cs, varCount, valResult =>
      if c = '[' then
        match hasNs[varCount + 1]? with
        | some h =>
            pass2Loop ns hasNs cs (varCount + 1)
              (if h = 0 then valResult ++ ns ++ sep else valResult)
        | none => .error (.outOfBounds (varCount + 1))
      else if c = ']' then pass2Loop ns hasNs cs varCount valResult
      else if c = ':' then pass2Loop ns hasNs cs varCount (valResult ++ sep)
      else pass2Loop ns hasNs cs varCount (valResult ++ [c])

/-- `ClhepEvaluator::prepare`: the pair `(nameResult, valResult)` after the
call, where `valResult` is the string the caller passes in. -/
def prepare (ns name exprValue valResult : List Char) :
    Except Failure (List Char × List Char) :=
  let nameResult := ns ++ sep ++ name
  match pass1 ns name exprValue with
  | .error f => .error f
  | .ok s =>
      match pass2Loop ns s.hasNs exprValue 0 valResult with
      | .ok v => .ok (nameResult, v)
      | .error f => .error f

/-- The `case` labels of the `switch` of `checkname`: the character is one of
`]`, `[`, blank, `:`, newline, tab, `&`, `*`, `+`, `-`, `/`, `^` (the label
`.` is commented out in the source). -/
def checknameCase (c : Char) : Bool :=
  c = ']' || c = '[' || c = ' ' || c = ':' || c = '\n' || c = '\t'
    || c = '&' || c = '*' || c = '+' || c = '-' || c = '/' || c = '^'

/-- The loop `while(sz)` of `checkname`: `sz` is decremented and the character
`s[sz]` examined; a character with a `case` label raises the `DDException`
that names it. -/
def checknameLoop (s : List Char) : Nat → Except Failure Unit
  | 0 => .ok ()
  | sz + 1 =>
      match s[sz]? with
      | some c =>
          if checknameCase c then
            .error (.ddException
              ("ClhepEvaluator ERROR: forbidden character '".toList ++ [c]
                ++ "' found in '".toList ++ s ++ "' !".toList))
          else checknameLoop s sz
      | none => .error (.outOfBounds sz)

/-- `ClhepEvaluator::checkname`: the loop from `sz = s.size()`. -/
def checkname (s : List Char) : Except Failure Unit :=
  checknameLoop s s.length

/-- The twelve characters forbidden in names and namespaces. -/
def forbiddenCharacters : List Char :=
  [']', '[', ' ', ':', '\n', '\t', '&', '*', '+', '-', '/', '^']

/-! ### The grammar of well-formed expressions -/

/-- The characters with a meaning for `prepare`. -/
def special (c : Char) : Bool := c = '[' || c = ']' || c = ':'

/-- A piece of an expression: a plain character, a bracket group `[x]` or a
bracket group `[n:x]`. -/
inductive Piece where
  | plain (c : Char)
  | unqualified (x : List Char)
  | qualified (n x : List Char)
deriving DecidableEq, Repr

namespace Piece

/-- The text of a piece in the expression. -/
def source : Piece → List Char
  | plain c => [c]
  | unqualified x => '[' :: x ++ [']']
  | qualified n x => '[' :: n ++ ':' :: x ++ [']']

/-- The text that replaces a piece: `ns___x` for `[x]`, `n___x` for `[n:x]`. -/
def replaced (ns : List Char) : Piece → List Char
  | plain c => [c]
  | unqualified x => ns ++ sep ++ x
  | qualified n x => n ++ sep ++ x

/-- A piece is well formed when a plain character is not special and the body
of a group has no `[`, `]` or `:` beyond the one `:` of `[n:x]`. -/
def WellFormed : Piece → Prop
  | plain c => special c = false
  | unqualified x => ∀ c ∈ x, special c = false
  | qualified n x => (∀ c ∈ n, special c = false) ∧ ∀ c ∈ x, special c = false

/-- The mark pass 1 leaves in `hasNs` for a piece. -/
def mark : Piece → List Nat
  | plain _ => []
  | unqualified _ => [0]
  | qualified _ _ => [1]

end Piece

/-- An expression is well formed when it is a concatenation of well-formed pieces. -/
def WellFormed (e : List Char) : Prop :=
  ∃ ps : List Piece, (∀ p ∈ ps, p.WellFormed) ∧ e = ps.flatMap Piece.source

/-- The left-to-right scan for an ill-formed expression: a `[` while a bracket
is open, a `]` with no open bracket, a `:` outside a bracket, a second `:`
inside the same bracket, or the end with a bracket still open. -/
def illFormedFrom : Bool → Bool → List Char → Bool
  | isOpen, _, [] => isOpen
  | isOpen, hasColon, c :: cs =>
      if c = '[' then isOpen || illFormedFrom true false cs
      else if c = ']' then !isOpen || illFormedFrom false false cs
      else if c = ':' then !isOpen || hasColon || illFormedFrom isOpen true cs
      else illFormedFrom isOpen hasColon cs

/-- An expression is ill formed when the scan from outside any bracket finds a fault. -/
def IllFormed (e : List Char) : Prop := illFormedFrom false false e = true

end ClhepEvaluator

namespace Alignment

/-! ## Concrete trees -/

/-- A leaf with id `n` at position `p`, with the identity orientation and a
zero position error (errors of three components, combined component-wise). -/
def leafAt (n : Nat) (p : Vec3) : Alignable Vec3 :=
  .detUnit ⟨n, ⟨p, 1⟩, 0, 1, none⟩ 0

/-- A composite with id `n` at position `p`, with the identity orientation and
no components yet. -/
def emptyComposite (n : Nat) (p : Vec3) : AlignableComposite Vec3 :=
  ⟨⟨n, ⟨p, 1⟩, 0, 1, none⟩, 0, []⟩

/-- The composite of the spec's example: leaves at `(1,0,0)` and `(3,0,0)` added
in that order to an empty composite. -/
def twoLeaves : AlignableComposite Vec3 :=
  [leafAt 1 ⟨1, 0, 0⟩, leafAt 2 ⟨3, 0, 0⟩].foldl AlignableComposite.addComponent
    (emptyComposite 0 0)

/-- The rotation by a quarter turn about the z axis. -/
def quarterTurn : Rotation := ⟨0, 1, 0, -1, 0, 0, 0, 0, 1⟩

/-- A composite with a single component, the leaf at `(1,0,0)`. -/
def oneLeaf : AlignableComposite Vec3 :=
  (emptyComposite 0 0).addComponent (leafAt 1 ⟨1, 0, 0⟩)

/-- A composite turned by a quarter turn, with two leaves. -/
def turnedComposite : AlignableComposite Vec3 :=
  ⟨⟨0, ⟨⟨2, 0, 0⟩, quarterTurn⟩, 0, 1, none⟩, 0, [leafAt 1 ⟨1, 0, 0⟩, leafAt 2 ⟨3, 0, 0⟩]⟩

/-! ## Properties -/

namespace Alignable

variable {E : Type}

/-! ### The loops are maps over the components -/

theorem moveComponents_eq_map (cs : List (Alignable E)) (d : Vec3) :
    moveComponents cs d = cs.map (fun c => move c d) := by
  induction cs with
  | nil => simp [moveComponents]
  | cons c cs ih => simp [moveComponents, ih]

theorem components_move (a : Alignable E) (d : Vec3) :
    (move a d).components = a.components.map (fun c => move c d) := by
  cases a with
  | detUnit b e => simp [move, components]
  | composite b st cs => simp [move, components, moveComponents_eq_map]

theorem globalPosition_move (a : Alignable E) (d : Vec3) :
    (move a d).globalPosition = a.globalPosition + d := by
  cases a <;>
    simp [move, globalPosition, base, AlignableBase.moveSurface, AlignableBase.addDisplacement,
      Surface.move]

theorem globalRotation_move (a : Alignable E) (d : Vec3) :
    (move a d).globalRotation = a.globalRotation := by
  cases a <;>
    simp [move, globalRotation, base, AlignableBase.moveSurface, AlignableBase.addDisplacement,
      Surface.move]

theorem theId_move (a : Alignable E) (d : Vec3) : (move a d).base.theId = a.base.theId := by
  cases a <;>
    simp [move, base, AlignableBase.moveSurface, AlignableBase.addDisplacement]

theorem positionError_move (a : Alignable E) (d : Vec3) :
    (move a d).positionError = a.positionError := by
  cases a <;> simp [move, positionError]

/-- A path is followed through a moved tree as through the tree itself. -/
theorem nodeAt_move (a : Alignable E) (d : Vec3) (path : List Nat) :
    (move a d).nodeAt path = (a.nodeAt path).map (fun n => move n d) := by
  induction path generalizing a with
  | nil => simp [nodeAt]
  | cons i path ih =>
    simp only [nodeAt, components_move, List.getElem?_map]
    cases a.components[i]? with
    | none => simp
    | some c => simpa using ih c

/-! ### recursiveComponents -/

mutual
/-- The incoming result is a prefix of the outcome of `recursiveComponents`. -/
theorem recursiveComponents_append (a : Alignable E) (r : List (Alignable E)) :
    recursiveComponents a r = r ++ recursiveComponents a [] := by
  cases a with
  | detUnit b e => simp [recursiveComponents]
  | composite b st cs =>
    simp only [recursiveComponents]
    split
    · simp
    · rw [recursiveComponentsLoop_append cs r, recursiveComponentsLoop_append cs []]
      simp
/-- The loop appends, for each component in order, the component and then its
own recursive components. -/
theorem recursiveComponentsLoop_append (cs r : List (Alignable E)) :
    recursiveComponentsLoop cs r
      = r ++ cs.flatMap (fun c => c :: recursiveComponents c []) := by
  cases cs with
  | nil => simp [recursiveComponentsLoop]
  | cons c cs =>
    rw [recursiveComponentsLoop, recursiveComponentsLoop_append cs,
      recursiveComponents_append c (r ++ [c])]
    simp
end

/-- C2: `recursiveComponents` on a node with incoming result `r` returns `r`
unchanged when the node has at most one component (a leaf has none), and
otherwise `r` followed, for each component in insertion order, by the component
and then by the component's own `recursiveComponents` output. -/
theorem recursiveComponents_spec (a : Alignable E) (r : List (Alignable E)) :
    recursiveComponents a r
      = if a.components.length ≤ 1 then r
        else r ++ a.components.flatMap (fun c => c :: recursiveComponents c []) := by
  cases a with
  | detUnit b e => simp [recursiveComponents, components]
  | composite b st cs =>
    simp only [recursiveComponents, components]
    split
    · rfl
    · exact recursiveComponentsLoop_append cs r

/-! ### move -/

/-- C3: after `move(d)` every node of the subtree, reached by any path of child
indices, has its global position increased by exactly `d`; its global rotation,
its id and its number of components are unchanged, and a path leaves the moved
tree exactly when it leaves the original one. -/
theorem move_displaces_subtree (a : Alignable E) (d : Vec3) (path : List Nat) :
    ((move a d).nodeAt path).map
        (fun n => (n.globalPosition, n.globalRotation, n.base.theId, n.components.length))
      = (a.nodeAt path).map
        (fun n => (n.globalPosition + d, n.globalRotation, n.base.theId, n.components.length)) := by
  rw [nodeAt_move, Option.map_map]
  congr 1
  funext n
  simp [globalPosition_move, globalRotation_move, theId_move, components_move]

/-- C4: `move(d)` followed by `move(-d)` restores the global position of every
node of the subtree and leaves every global rotation as it was. -/
theorem move_roundtrip (a : Alignable E) (d : Vec3) (path : List Nat) :
    ((move (move a d) (-d)).nodeAt path).map (fun n => (n.globalPosition, n.globalRotation))
      = (a.nodeAt path).map (fun n => (n.globalPosition, n.globalRotation)) := by
  rw [nodeAt_move, nodeAt_move, Option.map_map, Option.map_map]
  congr 1
  funext n
  simp [globalPosition_move, globalRotation_move]

end Alignable

/-! ### rotateInGlobalFrame -/

namespace Rotation

theorem multiplyInverse_zero (r : Rotation) : r.multiplyInverse 0 = 0 := by
  ext <;> simp [multiplyInverse]

theorem multiplyInverse_add (r : Rotation) (v w : Vec3) :
    r.multiplyInverse (v + w) = r.multiplyInverse v + r.multiplyInverse w := by
  ext <;> simp [multiplyInverse] <;> ring

theorem multiplyInverse_sub (r : Rotation) (v w : Vec3) :
    r.multiplyInverse (v - w) = r.multiplyInverse v - r.multiplyInverse w := by
  ext <;> simp [multiplyInverse] <;> ring

@[simp] theorem one_xx : (1 : Rotation).xx = 1 := rfl
@[simp] theorem one_xy : (1 : Rotation).xy = 0 := rfl
@[simp] theorem one_xz : (1 : Rotation).xz = 0 := rfl
@[simp] theorem one_yx : (1 : Rotation).yx = 0 := rfl
@[simp] theorem one_yy : (1 : Rotation).yy = 1 := rfl
@[simp] theorem one_yz : (1 : Rotation).yz = 0 := rfl
@[simp] theorem one_zx : (1 : Rotation).zx = 0 := rfl
@[simp] theorem one_zy : (1 : Rotation).zy = 0 := rfl
@[simp] theorem one_zz : (1 : Rotation).zz = 1 := rfl
@[simp] theorem mul_xx (a b : Rotation) :
    (a * b).xx = a.xx * b.xx + a.xy * b.yx + a.xz * b.zx := rfl
@[simp] theorem mul_xy (a b : Rotation) :
    (a * b).xy = a.xx * b.xy + a.xy * b.yy + a.xz * b.zy := rfl
@[simp] theorem mul_xz (a b : Rotation) :
    (a * b).xz = a.xx * b.xz + a.xy * b.yz + a.xz * b.zz := rfl
@[simp] theorem mul_yx (a b : Rotation) :
    (a * b).yx = a.yx * b.xx + a.yy * b.yx + a.yz * b.zx := rfl
@[simp] theorem mul_yy (a b : Rotation) :
    (a * b).yy = a.yx * b.xy + a.yy * b.yy + a.yz * b.zy := rfl
@[simp] theorem mul_yz (a b : Rotation) :
    (a * b).yz = a.yx * b.xz + a.yy * b.yz + a.yz * b.zz := rfl
@[simp] theorem mul_zx (a b : Rotation) :
    (a * b).zx = a.zx * b.xx + a.zy * b.yx + a.zz * b.zx := rfl
@[simp] theorem mul_zy (a b : Rotation) :
    (a * b).zy = a.zx * b.xy + a.zy * b.yy + a.zz * b.zy := rfl
@[simp] theorem mul_zz (a b : Rotation) :
    (a * b).zz = a.zx * b.xz + a.zy * b.yz + a.zz * b.zz := rfl
@[simp] theorem transposed_xx (a : Rotation) : a.transposed.xx = a.xx := rfl
@[simp] theorem transposed_xy (a : Rotation) : a.transposed.xy = a.yx := rfl
@[simp] theorem transposed_xz (a : Rotation) : a.transposed.xz = a.zx := rfl
@[simp] theorem transposed_yx (a : Rotation) : a.transposed.yx = a.xy := rfl
@[simp] theorem transposed_yy (a : Rotation) : a.transposed.yy = a.yy := rfl
@[simp] theorem transposed_yz (a : Rotation) : a.transposed.yz = a.zy := rfl
@[simp] theorem transposed_zx (a : Rotation) : a.transposed.zx = a.xz := rfl
@[simp] theorem transposed_zy (a : Rotation) : a.transposed.zy = a.yz := rfl
@[simp] theorem transposed_zz (a : Rotation) : a.transposed.zz = a.zz := rfl

theorem one_multiplyInverse (v : Vec3) : (1 : Rotation).multiplyInverse v = v := by
  ext <;> simp [multiplyInverse]

/-- Applying the inverses of `b` and then of `a` is applying the inverse of `b * a`. -/
theorem multiplyInverse_multiplyInverse (a b : Rotation) (v : Vec3) :
    a.multiplyInverse (b.multiplyInverse v) = (b * a).multiplyInverse v := by
  ext <;> simp [multiplyInverse] <;> ring

theorem mul_assoc_rot (a b c : Rotation) : a * b * c = a * (b * c) := by
  ext <;> simp <;> ring

theorem mul_one_rot (a : Rotation) : a * 1 = a := by
  ext <;> simp

end Rotation

namespace Alignable

variable {E : Type}

theorem rotateComponents_eq_map (cs : List (Alignable E)) (p : Vec3) (r : Rotation) :
    rotateComponents cs p r
      = cs.map (fun c =>
          rotateInGlobalFrame
            (move c (r.multiplyInverse (c.globalPosition - p) - (c.globalPosition - p))) r) := by
  induction cs with
  | nil => simp [rotateComponents]
  | cons c cs ih => simp [rotateComponents, ih]

theorem components_rotateInGlobalFrame (a : Alignable E) (r : Rotation) :
    (rotateInGlobalFrame a r).components
      = a.components.map (fun c =>
          rotateInGlobalFrame
            (move c (r.multiplyInverse (c.globalPosition - a.globalPosition)
              - (c.globalPosition - a.globalPosition))) r) := by
  cases a with
  | detUnit b e => simp [rotateInGlobalFrame, components]
  | composite b st cs =>
    simp [rotateInGlobalFrame, components, rotateComponents_eq_map, globalPosition, base]

theorem globalPosition_rotateInGlobalFrame (a : Alignable E) (r : Rotation) :
    (rotateInGlobalFrame a r).globalPosition = a.globalPosition := by
  cases a <;>
    simp [rotateInGlobalFrame, globalPosition, base, AlignableBase.rotateSurface,
      AlignableBase.addRotation, Surface.rotate]

theorem globalRotation_rotateInGlobalFrame (a : Alignable E) (r : Rotation) :
    (rotateInGlobalFrame a r).globalRotation = a.globalRotation * r := by
  cases a <;>
    simp [rotateInGlobalFrame, globalRotation, base, AlignableBase.rotateSurface,
      AlignableBase.addRotation, Surface.rotate]

/-- The rigid rotation of a subtree about the centre of its root, node by node. -/
theorem nodeAt_rotateInGlobalFrame (r : Rotation) (path : List Nat) (a : Alignable E) :
    ((rotateInGlobalFrame a r).nodeAt path).map
        (fun x => (x.globalPosition, x.globalRotation))
      = (a.nodeAt path).map
        (fun x => (a.globalPosition + r.multiplyInverse (x.globalPosition - a.globalPosition),
          x.globalRotation * r)) := by
  induction path generalizing a with
  | nil =>
    simp [nodeAt, globalPosition_rotateInGlobalFrame, globalRotation_rotateInGlobalFrame,
      Rotation.multiplyInverse_zero]
  | cons i path ih =>
    simp only [nodeAt, components_rotateInGlobalFrame, List.getElem?_map]
    cases a.components[i]? with
    | none => simp
    | some c =>
      simp only [Option.map_some']
      rw [ih, nodeAt_move, Option.map_map]
      congr 1
      funext x
      simp only [Function.comp_apply, globalPosition_move, globalRotation_move, Prod.mk.injEq,
        and_true]
      rw [show x.globalPosition
            + (r.multiplyInverse (c.globalPosition - a.globalPosition)
              - (c.globalPosition - a.globalPosition))
            - (c.globalPosition
              + (r.multiplyInverse (c.globalPosition - a.globalPosition)
                - (c.globalPosition - a.globalPosition)))
          = x.globalPosition - c.globalPosition by abel,
        show x.globalPosition - a.globalPosition
          = (c.globalPosition - a.globalPosition) + (x.globalPosition - c.globalPosition) by abel,
        Rotation.multiplyInverse_add]
      abel

/-- C5: `rotateInGlobalFrame(R)` on a node with centre `p` keeps the node's own
global position `p`, puts every node `x` of the subtree, at any depth, at
`p + R.multiplyInverse (old position of x - p)`, and composes the orientation
of every node of the subtree with `R` exactly once: the assembly rotates
rigidly about the node's own centre. -/
theorem rotateInGlobalFrame_rigid (a : Alignable E) (r : Rotation) :
    (rotateInGlobalFrame a r).globalPosition = a.globalPosition ∧
    ∀ path : List Nat,
      ((rotateInGlobalFrame a r).nodeAt path).map
          (fun x => (x.globalPosition, x.globalRotation))
        = (a.nodeAt path).map
          (fun x => (a.globalPosition + r.multiplyInverse (x.globalPosition - a.globalPosition),
            x.globalRotation * r)) :=
  ⟨globalPosition_rotateInGlobalFrame a r, fun path => nodeAt_rotateInGlobalFrame r path a⟩

end Alignable

namespace Alignable

variable {E : Type}

/-- The pair observed on a node by the rotation properties is rotated about `p`. -/
theorem nodeAt_rotateInGlobalFrame_obs (r : Rotation) (path : List Nat) (a : Alignable E) :
    ((rotateInGlobalFrame a r).nodeAt path).map
        (fun x => (x.globalPosition, x.globalRotation))
      = ((a.nodeAt path).map (fun x => (x.globalPosition, x.globalRotation))).map
        (fun q => (a.globalPosition + r.multiplyInverse (q.1 - a.globalPosition), q.2 * r)) := by
  rw [nodeAt_rotateInGlobalFrame, Option.map_map]
  rfl

/-- C6: for an orthonormal `R`, `rotateInGlobalFrame(R)` followed by
`rotateInGlobalFrame` of the inverse of `R` (its transpose) restores the global
position and the global orientation of every node of the subtree. -/
theorem rotateInGlobalFrame_roundtrip (a : Alignable E) (r : Rotation) (hr : r.Orthonormal)
    (path : List Nat) :
    ((rotateInGlobalFrame (rotateInGlobalFrame a r) r.transposed).nodeAt path).map
        (fun x => (x.globalPosition, x.globalRotation))
      = (a.nodeAt path).map (fun x => (x.globalPosition, x.globalRotation)) := by
  rw [nodeAt_rotateInGlobalFrame_obs, nodeAt_rotateInGlobalFrame_obs, Option.map_map,
    globalPosition_rotateInGlobalFrame]
  generalize (a.nodeAt path).map (fun x => (x.globalPosition, x.globalRotation)) = o
  cases o with
  | none => rfl
  | some q =>
  obtain ⟨pos, rot⟩ := q
  simp only [Option.map_some', Function.comp_apply, Option.some.injEq, Prod.mk.injEq]
  constructor
  · rw [show a.globalPosition + r.multiplyInverse (pos - a.globalPosition) - a.globalPosition
        = r.multiplyInverse (pos - a.globalPosition) by abel,
      Rotation.multiplyInverse_multiplyInverse, hr.2, Rotation.one_multiplyInverse]
    abel
  · rw [Rotation.mul_assoc_rot, hr.2, Rotation.mul_one_rot]

end Alignable

/-! ### Position errors -/

namespace Alignable

variable {E : Type}

theorem setAlignmentPositionErrorComponents_eq_map (cs : List (Alignable E)) (e : E) :
    setAlignmentPositionErrorComponents cs e
      = cs.map (fun c => setAlignmentPositionError c e) := by
  induction cs with
  | nil => simp [setAlignmentPositionErrorComponents]
  | cons c cs ih => simp [setAlignmentPositionErrorComponents, ih]

theorem components_setAlignmentPositionError (a : Alignable E) (e : E) :
    (setAlignmentPositionError a e).components
      = a.components.map (fun c => setAlignmentPositionError c e) := by
  cases a with
  | detUnit b e0 => simp [setAlignmentPositionError, components]
  | composite b st cs =>
    simp [setAlignmentPositionError, components, setAlignmentPositionErrorComponents_eq_map]

theorem base_setAlignmentPositionError (a : Alignable E) (e : E) :
    (setAlignmentPositionError a e).base = a.base := by
  cases a <;> simp [setAlignmentPositionError, base]

theorem positionError_setAlignmentPositionError (a : Alignable E) (e : E) :
    (setAlignmentPositionError a e).positionError = a.positionError.map (fun _ => e) := by
  cases a <;> simp [setAlignmentPositionError, positionError]

theorem nodeAt_setAlignmentPositionError (a : Alignable E) (e : E) (path : List Nat) :
    (setAlignmentPositionError a e).nodeAt path
      = (a.nodeAt path).map (fun n => setAlignmentPositionError n e) := by
  induction path generalizing a with
  | nil => simp [nodeAt]
  | cons i path ih =>
    simp only [nodeAt, components_setAlignmentPositionError, List.getElem?_map]
    cases a.components[i]? with
    | none => simp
    | some c => simpa using ih c

/-- C9: after `setAlignmentPositionError(e)` on a node, every leaf of its
subtree, reached by any path of child indices, has position error exactly `e`
whatever its error was before; a composite stores no error; and the global
position and rotation of every node are unchanged. -/
theorem setAlignmentPositionError_overwrites (a : Alignable E) (e : E) (path : List Nat) :
    ((setAlignmentPositionError a e).nodeAt path).map
        (fun n => (n.positionError, n.globalPosition, n.globalRotation))
      = (a.nodeAt path).map
        (fun n => (n.positionError.map (fun _ => e), n.globalPosition, n.globalRotation)) := by
  rw [nodeAt_setAlignmentPositionError, Option.map_map]
  congr 1
  funext n
  simp [positionError_setAlignmentPositionError, globalPosition, globalRotation,
    base_setAlignmentPositionError]

theorem addAlignmentPositionErrorComponents_eq_map [Add E] (cs : List (Alignable E)) (e : E) :
    addAlignmentPositionErrorComponents cs e
      = cs.map (fun c => addAlignmentPositionError c e) := by
  induction cs with
  | nil => simp [addAlignmentPositionErrorComponents]
  | cons c cs ih => simp [addAlignmentPositionErrorComponents, ih]

theorem components_addAlignmentPositionError [Add E] (a : Alignable E) (e : E) :
    (addAlignmentPositionError a e).components
      = a.components.map (fun c => addAlignmentPositionError c e) := by
  cases a with
  | detUnit b e0 => simp [addAlignmentPositionError, components]
  | composite b st cs =>
    simp [addAlignmentPositionError, components, addAlignmentPositionErrorComponents_eq_map]

theorem positionError_addAlignmentPositionError [Add E] (a : Alignable E) (e : E) :
    (addAlignmentPositionError a e).positionError = a.positionError.map (fun e0 => e0 + e) := by
  cases a <;> simp [addAlignmentPositionError, positionError]

theorem nodeAt_addAlignmentPositionError [Add E] (a : Alignable E) (e : E) (path : List Nat) :
    (addAlignmentPositionError a e).nodeAt path
      = (a.nodeAt path).map (fun n => addAlignmentPositionError n e) := by
  induction path generalizing a with
  | nil => simp [nodeAt]
  | cons i path ih =>
    simp only [nodeAt, components_addAlignmentPositionError, List.getElem?_map]
    cases a.components[i]? with
    | none => simp
    | some c => simpa using ih c

mutual
/-- Adding two errors in turn is adding their combination, on a subtree. -/
theorem addAlignmentPositionError_twice [AddSemigroup E] (a : Alignable E) (e1 e2 : E) :
    addAlignmentPositionError (addAlignmentPositionError a e1) e2
      = addAlignmentPositionError a (e1 + e2) := by
  cases a with
  | detUnit b e => simp [addAlignmentPositionError, add_assoc]
  | composite b st cs =>
    simp [addAlignmentPositionError, addAlignmentPositionErrorComponents_twice cs e1 e2]
/-- Adding two errors in turn is adding their combination, on a sequence of subtrees. -/
theorem addAlignmentPositionErrorComponents_twice [AddSemigroup E] (cs : List (Alignable E))
    (e1 e2 : E) :
    addAlignmentPositionErrorComponents (addAlignmentPositionErrorComponents cs e1) e2
      = addAlignmentPositionErrorComponents cs (e1 + e2) := by
  cases cs with
  | nil => simp [addAlignmentPositionErrorComponents]
  | cons c cs =>
    simp [addAlignmentPositionErrorComponents, addAlignmentPositionError_twice c e1 e2,
      addAlignmentPositionErrorComponents_twice cs e1 e2]
end

/-- C10: for an associative combination `+` of errors, the tree after
`addAlignmentPositionError(e1)` followed by `addAlignmentPositionError(e2)` is
the tree after a single `addAlignmentPositionError(e1 + e2)`, and every leaf of
the subtree ends with its previous error plus `e1` plus `e2`. -/
theorem addAlignmentPositionError_accumulates [AddSemigroup E] (a : Alignable E) (e1 e2 : E) :
    addAlignmentPositionError (addAlignmentPositionError a e1) e2
        = addAlignmentPositionError a (e1 + e2) ∧
    ∀ path : List Nat,
      ((addAlignmentPositionError (addAlignmentPositionError a e1) e2).nodeAt path).map
          positionError
        = (a.nodeAt path).map (fun n => n.positionError.map (fun e => e + e1 + e2)) := by
  refine ⟨addAlignmentPositionError_twice a e1 e2, fun path => ?_⟩
  rw [nodeAt_addAlignmentPositionError, nodeAt_addAlignmentPositionError, Option.map_map,
    Option.map_map]
  congr 1
  funext n
  simp [positionError_addAlignmentPositionError, Option.map_map, Function.comp_def]

end Alignable

/-! ### moveComponentLocal -/

namespace AlignableComposite

variable {E : Type}

/-- C7: for a composite with `k` components and an index `i ≥ k`,
`moveComponentLocal(i, v)` fails with the out-of-range logic error and the
composite after the call is the composite before it: no position, rotation or
position error of any node has changed. -/
theorem moveComponentLocal_out_of_range (self : AlignableComposite E) (i : Int) (v : Vec3)
    (h : (self.theComponents.length : Int) ≤ i) :
    self.moveComponentLocal i v = (.error (.logicError i), self) := by
  simp [moveComponentLocal, size, h]

/-- C8: for a composite with `k` components and an index `0 ≤ i < k`,
`moveComponentLocal(i, v)` succeeds; with `g` the global equivalent of `v` in
the composite's own surface, every node of the subtree of component `i` is
moved by `g` and keeps its rotation, the composite keeps its own global
position and rotation and its number of components, and every node below
another component is unchanged. -/
theorem moveComponentLocal_in_range (self : AlignableComposite E) (i : Int) (v : Vec3)
    (h0 : 0 ≤ i) (hk : i < (self.theComponents.length : Int)) :
    (self.moveComponentLocal i v).1 = .ok () ∧
    (self.moveComponentLocal i v).2.globalPosition = self.globalPosition ∧
    (self.moveComponentLocal i v).2.globalRotation = self.globalRotation ∧
    (self.moveComponentLocal i v).2.theComponents.length = self.theComponents.length ∧
    (∀ path : List Nat,
      ((self.moveComponentLocal i v).2.toAlignable.nodeAt (i.toNat :: path)).map
          (fun n => (n.globalPosition, n.globalRotation))
        = (self.toAlignable.nodeAt (i.toNat :: path)).map
          (fun n => (n.globalPosition + self.surface.toGlobal v, n.globalRotation))) ∧
    ∀ (j : Nat) (path : List Nat), j ≠ i.toNat →
      (self.moveComponentLocal i v).2.toAlignable.nodeAt (j :: path)
        = self.toAlignable.nodeAt (j :: path) := by
  obtain ⟨n, rfl⟩ := Int.eq_ofNat_of_zero_le h0
  have hn : n < self.theComponents.length := by exact_mod_cast hk
  have hget : self.theComponents[n]? = some self.theComponents[n] := List.getElem?_eq_getElem hn
  have hcall : self.moveComponentLocal (n : Int) v
      = (.ok (), { self with
          theComponents :=
            self.theComponents.set n (self.theComponents[n].move (self.surface.toGlobal v)) }) := by
    have hlt : ¬ (self.theComponents.length : Int) ≤ Int.ofNat n := by
      simp only [Int.ofNat_eq_coe]
      omega
    show self.moveComponentLocal (Int.ofNat n) v = _
    simp only [moveComponentLocal, size, ge_iff_le, hlt, if_false, hget]
  rw [hcall]
  refine ⟨rfl, rfl, rfl, by simp, fun path => ?_, fun j path hj => ?_⟩
  · simp only [Int.toNat_ofNat, toAlignable, Alignable.nodeAt, Alignable.components,
      List.getElem?_set_self hn, hget]
    rw [Alignable.nodeAt_move, Option.map_map]
    congr 1
    funext x
    simp [Alignable.globalPosition_move, Alignable.globalRotation_move]
  · simp only [Int.toNat_ofNat] at hj
    simp only [toAlignable, Alignable.nodeAt, Alignable.components]
    rw [List.getElem?_set_ne (Ne.symm hj)]

end AlignableComposite

/-! ### addComponent -/

namespace AlignableComposite

variable {E : Type}

theorem globalPosition_setMother (a : Alignable E) (m : Nat) :
    (a.setMother m).globalPosition = a.globalPosition := by
  cases a <;> simp [Alignable.setMother, Alignable.globalPosition, Alignable.base,
    AlignableBase.setMother]

theorem length_addComponent (c : AlignableComposite E) (a : Alignable E) :
    (c.addComponent a).theComponents.length = c.theComponents.length + 1 := by
  simp [addComponent]

theorem globalPosition_addComponent (c : AlignableComposite E) (a : Alignable E) :
    (c.addComponent a).globalPosition
      = c.globalPosition
        + (a.globalPosition - c.globalPosition) / ((c.theComponents.length : Scalar) + 1) := by
  simp [addComponent, globalPosition, AlignableBase.moveSurface, Surface.move,
    globalPosition_setMother]

/-- The running sum kept by `addComponent`: with `m` components before and `n`
added, `(m + n)` times the new position is `m` times the old one plus the sum
of the positions of the added components. -/
theorem foldl_addComponent_sum (l : List (Alignable E)) (c : AlignableComposite E) :
    (l.foldl addComponent c).theComponents.length = c.theComponents.length + l.length ∧
    ((c.theComponents.length : Scalar) + l.length) • (l.foldl addComponent c).globalPosition
      = (c.theComponents.length : Scalar) • c.globalPosition
        + (l.map Alignable.globalPosition).sum := by
  induction l generalizing c with
  | nil => simp
  | cons a l ih =>
    obtain ⟨h1, h2⟩ := ih (c.addComponent a)
    rw [length_addComponent] at h1 h2
    refine ⟨by simp [h1]; omega, ?_⟩
    have hne : (c.theComponents.length : Scalar) + 1 ≠ 0 := by positivity
    have hstep : ((c.theComponents.length : Scalar) + 1) • (c.addComponent a).globalPosition
        = (c.theComponents.length : Scalar) • c.globalPosition + a.globalPosition := by
      rw [globalPosition_addComponent]
      ext <;> simp [Vec3.smul_x, Vec3.smul_y, Vec3.smul_z] <;> field_simp <;> ring
    simp only [List.foldl_cons, List.map_cons, List.sum_cons, List.length_cons]
    push_cast at h2 ⊢
    rw [show (c.theComponents.length : Scalar) + (l.length + 1)
        = (c.theComponents.length : Scalar) + 1 + l.length by ring, h2, hstep, add_assoc]

/-- C1: starting from a composite without components, whatever its position,
after the `k`-th of a sequence of `addComponent` calls the composite's global
position is the arithmetic mean of the global positions the first `k` added
components had when they were added. -/
theorem addComponent_running_mean (c : AlignableComposite E) (hc : c.theComponents = [])
    (cs : List (Alignable E)) (k : Nat) (hk : 1 ≤ k) (hkn : k ≤ cs.length) :
    ((cs.take k).foldl addComponent c).globalPosition
      = ((cs.take k).map Alignable.globalPosition).sum / (k : Scalar) := by
  obtain ⟨-, h⟩ := foldl_addComponent_sum (cs.take k) c
  have hlen : (cs.take k).length = k := by simp [hkn]
  rw [hc, hlen] at h
  have hk0 : (k : Scalar) ≠ 0 := by
    have : (0 : Scalar) < k := by exact_mod_cast hk
    exact ne_of_gt this
  generalize ((cs.take k).map Alignable.globalPosition).sum = total at h ⊢
  generalize ((cs.take k).foldl addComponent c).globalPosition = p at h ⊢
  have hx := congrArg Vec3.x h
  have hy := congrArg Vec3.y h
  have hz := congrArg Vec3.z h
  simp at hx hy hz
  ext
  · simp only [Vec3.div_x]; rw [eq_div_iff hk0, ← hx]; ring
  · simp only [Vec3.div_y]; rw [eq_div_iff hk0, ← hy]; ring
  · simp only [Vec3.div_z]; rw [eq_div_iff hk0, ← hz]; ring

end AlignableComposite

/-! ### Witnesses -/

/-- The example of C1: root `R`, leaves `A` at `(1,0,0)` then `B` at `(3,0,0)`;
`R` is at `(2,0,0)` after both. -/
theorem addComponent_running_mean_witness :
    ([leafAt 1 ⟨1, 0, 0⟩, leafAt 2 ⟨3, 0, 0⟩].foldl AlignableComposite.addComponent
        (emptyComposite 0 ⟨7, 5, 3⟩)).globalPosition = ⟨2, 0, 0⟩ := by
  have h := AlignableComposite.addComponent_running_mean (emptyComposite 0 ⟨7, 5, 3⟩) rfl
    [leafAt 1 ⟨1, 0, 0⟩, leafAt 2 ⟨3, 0, 0⟩] 2 (by decide) (by decide)
  rw [List.take_of_length_le (by simp)] at h
  rw [h]
  ext
  · simp [leafAt, Alignable.globalPosition, Alignable.base]; norm_num
  · simp [leafAt, Alignable.globalPosition, Alignable.base]
  · simp [leafAt, Alignable.globalPosition, Alignable.base]

theorem quarterTurn_orthonormal : quarterTurn.Orthonormal := by
  constructor <;> ext <;> simp [quarterTurn]

theorem length_twoLeaves : twoLeaves.theComponents.length = 2 := by
  simp [twoLeaves, AlignableComposite.addComponent, emptyComposite]

/-- The round trip of C6 on the example composite, turned by a quarter turn
about the z axis and back, observed on its first leaf. -/
theorem rotateInGlobalFrame_roundtrip_witness :
    quarterTurn.Orthonormal ∧
    ((Alignable.rotateInGlobalFrame
        (Alignable.rotateInGlobalFrame twoLeaves.toAlignable quarterTurn)
        quarterTurn.transposed).nodeAt [0]).map
        (fun x => (x.globalPosition, x.globalRotation))
      = (twoLeaves.toAlignable.nodeAt [0]).map (fun x => (x.globalPosition, x.globalRotation)) :=
  ⟨quarterTurn_orthonormal,
    Alignable.rotateInGlobalFrame_roundtrip twoLeaves.toAlignable quarterTurn
      quarterTurn_orthonormal [0]⟩

/-- The failure of C7 on the example composite: index 2 with two components. -/
theorem moveComponentLocal_out_of_range_witness :
    twoLeaves.moveComponentLocal 2 ⟨1, 2, 3⟩ = (.error (.logicError 2), twoLeaves) :=
  AlignableComposite.moveComponentLocal_out_of_range twoLeaves 2 ⟨1, 2, 3⟩
    (by rw [length_twoLeaves]; decide)

/-- The success of C8 on the example composite: index 1 with two components. -/
theorem moveComponentLocal_in_range_witness :
    (twoLeaves.moveComponentLocal 1 ⟨1, 2, 3⟩).1 = .ok () ∧
    (twoLeaves.moveComponentLocal 1 ⟨1, 2, 3⟩).2.globalPosition = twoLeaves.globalPosition :=
  have h := AlignableComposite.moveComponentLocal_in_range twoLeaves 1 ⟨1, 2, 3⟩ (by decide)
    (by rw [length_twoLeaves]; decide)
  ⟨h.1, h.2.1⟩

/-! ### Position errors from a rotation -/

namespace Alignable

variable {E : Type}

theorem base_addAlignmentPositionError [Add E] (a : Alignable E) (e : E) :
    (addAlignmentPositionError a e).base = a.base := by
  cases a <;> simp [addAlignmentPositionError, base]

theorem addAlignmentPositionErrorFromRotationComponents_eq_map [Add E]
    (ape : Scalar → Scalar → Scalar → E) (detUnitRule : AlignableBase → E → Rotation → E)
    (cs : List (Alignable E)) (p : Vec3) (r : Rotation) :
    addAlignmentPositionErrorFromRotationComponents ape detUnitRule cs p r
      = cs.map (fun c =>
          addAlignmentPositionErrorFromRotation ape detUnitRule
            (addAlignmentPositionError c
              (ape (rotationDisplacement r p c.globalPosition).x
                (rotationDisplacement r p c.globalPosition).y
                (rotationDisplacement r p c.globalPosition).z)) r) := by
  induction cs with
  | nil => simp [addAlignmentPositionErrorFromRotationComponents]
  | cons c cs ih =>
    simp [addAlignmentPositionErrorFromRotationComponents, ih, rotationDisplacement]

theorem components_addAlignmentPositionErrorFromRotation [Add E]
    (ape : Scalar → Scalar → Scalar → E) (detUnitRule : AlignableBase → E → Rotation → E)
    (a : Alignable E) (r : Rotation) :
    (addAlignmentPositionErrorFromRotation ape detUnitRule a r).components
      = a.components.map (fun c =>
          addAlignmentPositionErrorFromRotation ape detUnitRule
            (addAlignmentPositionError c
              (ape (rotationDisplacement r a.globalPosition c.globalPosition).x
                (rotationDisplacement r a.globalPosition c.globalPosition).y
                (rotationDisplacement r a.globalPosition c.globalPosition).z)) r) := by
  cases a with
  | detUnit b e => simp [addAlignmentPositionErrorFromRotation, components]
  | composite b st cs =>
    simp [addAlignmentPositionErrorFromRotation, components,
      addAlignmentPositionErrorFromRotationComponents_eq_map, globalPosition, base]

theorem base_addAlignmentPositionErrorFromRotation [Add E]
    (ape : Scalar → Scalar → Scalar → E) (detUnitRule : AlignableBase → E → Rotation → E)
    (a : Alignable E) (r : Rotation) :
    (addAlignmentPositionErrorFromRotation ape detUnitRule a r).base = a.base := by
  cases a <;> simp [addAlignmentPositionErrorFromRotation, base]

theorem positionError_addAlignmentPositionErrorFromRotation [Add E]
    (ape : Scalar → Scalar → Scalar → E) (detUnitRule : AlignableBase → E → Rotation → E)
    (a : Alignable E) (r : Rotation) :
    (addAlignmentPositionErrorFromRotation ape detUnitRule a r).positionError
      = a.positionError.map (fun e => detUnitRule a.base e r) := by
  cases a <;> simp [addAlignmentPositionErrorFromRotation, positionError, base]

/-- The chain of errors depends on positions only, which adding an error keeps. -/
theorem chainErrors_addAlignmentPositionError [Add E] (ape : Scalar → Scalar → Scalar → E)
    (r : Rotation) (e : E) (path : List Nat) (a : Alignable E) :
    chainErrors ape r (addAlignmentPositionError a e) path = chainErrors ape r a path := by
  induction path generalizing a with
  | nil => simp [chainErrors]
  | cons i path ih =>
    simp only [chainErrors, components_addAlignmentPositionError, List.getElem?_map]
    cases a.components[i]? with
    | none => simp
    | some c =>
      simp [ih, globalPosition, base_addAlignmentPositionError]

/-- The error of the node at a path after `addAlignmentPositionErrorFromRotation`. -/
theorem nodeAt_addAlignmentPositionErrorFromRotation_error [Add E]
    (ape : Scalar → Scalar → Scalar → E) (detUnitRule : AlignableBase → E → Rotation → E)
    (r : Rotation) (path : List Nat) (a : Alignable E) :
    ((addAlignmentPositionErrorFromRotation ape detUnitRule a r).nodeAt path).map positionError
      = (a.nodeAt path).map (fun l =>
          l.positionError.map (fun e =>
            detUnitRule l.base ((chainErrors ape r a path).foldl (fun x y => x + y) e) r)) := by
  induction path generalizing a with
  | nil => simp [nodeAt, chainErrors, positionError_addAlignmentPositionErrorFromRotation]
  | cons i path ih =>
    simp only [nodeAt, chainErrors, components_addAlignmentPositionErrorFromRotation,
      List.getElem?_map]
    cases a.components[i]? with
    | none => simp
    | some c =>
      simp only [Option.map_some']
      rw [ih, chainErrors_addAlignmentPositionError, nodeAt_addAlignmentPositionError,
        Option.map_map]
      congr 1
      funext l
      simp [positionError_addAlignmentPositionError, base_addAlignmentPositionError,
        Option.map_map, Function.comp_def]

/-- C11: `addAlignmentPositionErrorFromRotation(R)` on `n` gives the leaf `l`
reached by a path, with ancestor chain `n = a_0, ..., a_m = l`, its previous
error plus `APE(d_1)`, ..., plus `APE(d_m)`, added in this order, where
`d_j = R.multiplyInverse(pos(a_j) - pos(a_(j-1))) - (pos(a_j) - pos(a_(j-1)))`
with the positions before the call; the leaf's own method, which is not part
of the sources, is applied to that sum, and with a leaf that adds nothing of
its own the sum is the leaf's error.  For a direct component the displacement
`d_1` is the one by which `rotateInGlobalFrame(R)` on `n` moves it. -/
theorem addAlignmentPositionErrorFromRotation_chain [Add E]
    (ape : Scalar → Scalar → Scalar → E) (detUnitRule : AlignableBase → E → Rotation → E)
    (n : Alignable E) (r : Rotation) :
    (∀ path : List Nat,
      ((addAlignmentPositionErrorFromRotation ape detUnitRule n r).nodeAt path).map positionError
        = (n.nodeAt path).map (fun l =>
            l.positionError.map (fun e =>
              detUnitRule l.base ((chainErrors ape r n path).foldl (fun x y => x + y) e) r))) ∧
    (∀ path : List Nat,
      ((addAlignmentPositionErrorFromRotation ape (fun _ e _ => e) n r).nodeAt path).map
          positionError
        = (n.nodeAt path).map (fun l =>
            l.positionError.map (fun e =>
              (chainErrors ape r n path).foldl (fun x y => x + y) e))) ∧
    (∀ i : Nat,
      chainErrors ape r n [i]
        = (n.components[i]?).toList.map (fun c =>
            ape (rotationDisplacement r n.globalPosition c.globalPosition).x
              (rotationDisplacement r n.globalPosition c.globalPosition).y
              (rotationDisplacement r n.globalPosition c.globalPosition).z)) ∧
    ∀ i : Nat,
      ((rotateInGlobalFrame n r).components[i]?).map globalPosition
        = (n.components[i]?).map (fun c =>
            c.globalPosition + rotationDisplacement r n.globalPosition c.globalPosition) := by
  refine ⟨fun path => nodeAt_addAlignmentPositionErrorFromRotation_error ape detUnitRule r path n,
    fun path => nodeAt_addAlignmentPositionErrorFromRotation_error ape _ r path n,
    fun i => ?_, fun i => ?_⟩
  · simp only [chainErrors]
    cases n.components[i]? <;> simp [chainErrors]
  · rw [components_rotateInGlobalFrame, List.getElem?_map, Option.map_map]
    congr 1
    funext c
    simp [globalPosition_rotateInGlobalFrame, globalPosition_move, rotationDisplacement]

/-- The observation of a node at a path is kept by `addAlignmentPositionErrorFromRotation`. -/
theorem nodeAt_addAlignmentPositionErrorFromRotation_frame [Add E]
    (ape : Scalar → Scalar → Scalar → E) (detUnitRule : AlignableBase → E → Rotation → E)
    (r : Rotation) (path : List Nat) (a : Alignable E) :
    ((addAlignmentPositionErrorFromRotation ape detUnitRule a r).nodeAt path).map
        (fun x => (x.base, x.components.length))
      = (a.nodeAt path).map (fun x => (x.base, x.components.length)) := by
  induction path generalizing a with
  | nil =>
    simp [nodeAt, base_addAlignmentPositionErrorFromRotation,
      components_addAlignmentPositionErrorFromRotation]
  | cons i path ih =>
    simp only [nodeAt, components_addAlignmentPositionErrorFromRotation, List.getElem?_map]
    cases a.components[i]? with
    | none => simp
    | some c =>
      simp only [Option.map_some']
      rw [ih, nodeAt_addAlignmentPositionError, Option.map_map]
      congr 1
      funext l
      simp [base_addAlignmentPositionError, components_addAlignmentPositionError]

/-- C12: `addAlignmentPositionErrorFromRotation(R)` does not perform the
rotation: along every path of child indices the node after the call has the
global position, the global rotation, the id and the number of components of
the node before it, and a path leaves the tree after the call exactly when it
leaves the tree before; only position errors change. -/
theorem addAlignmentPositionErrorFromRotation_frame [Add E]
    (ape : Scalar → Scalar → Scalar → E) (detUnitRule : AlignableBase → E → Rotation → E)
    (a : Alignable E) (r : Rotation) (path : List Nat) :
    ((addAlignmentPositionErrorFromRotation ape detUnitRule a r).nodeAt path).map
        (fun x => (x.globalPosition, x.globalRotation, x.base.theId, x.components.length))
      = (a.nodeAt path).map
        (fun x => (x.globalPosition, x.globalRotation, x.base.theId, x.components.length)) := by
  have h := congrArg
    (Option.map (fun q : AlignableBase × Nat =>
      (q.1.theSurface.position, q.1.theSurface.rotation, q.1.theId, q.2)))
    (nodeAt_addAlignmentPositionErrorFromRotation_frame ape detUnitRule r path a)
  simpa [Option.map_map, Function.comp_def, globalPosition, globalRotation] using h

end Alignable

namespace Rotation

theorem one_mul_rot (a : Rotation) : 1 * a = a := by
  ext <;> simp

/-- The inverse of an orthonormal matrix is its transpose. -/
theorem inverse_eq_transposed (g gInv : Rotation) (hg : g.Orthonormal) (hinv : gInv * g = 1) :
    gInv = g.transposed := by
  calc gInv = gInv * (g * g.transposed) := by rw [hg.2, mul_one_rot]
    _ = gInv * g * g.transposed := by rw [mul_assoc_rot]
    _ = g.transposed := by rw [hinv, one_mul_rot]

end Rotation

namespace AlignableComposite

variable {E : Type}

/-- C13: for a composite whose global rotation `G` is orthonormal, with inverse
`G⁻¹`, and a rotation `L` given in the composite's local frame, the matrix the
code computes, `globalRotation().multiplyInverse(L * globalRotation())`, is
`G⁻¹ * L * G`, and `addAlignmentPositionErrorFromLocalRotation(L)` has exactly
the effect of `addAlignmentPositionErrorFromRotation(G⁻¹ * L * G)`. -/
theorem addAlignmentPositionErrorFromLocalRotation_eq [Add E]
    (ape : Scalar → Scalar → Scalar → E) (detUnitRule : AlignableBase → E → Rotation → E)
    (self : AlignableComposite E) (l gInv : Rotation)
    (hg : self.globalRotation.Orthonormal) (hinv : gInv * self.globalRotation = 1) :
    self.globalRotation.multiplyInverseRot (l * self.globalRotation)
        = gInv * l * self.globalRotation ∧
    self.addAlignmentPositionErrorFromLocalRotation ape detUnitRule l
        = self.toAlignable.addAlignmentPositionErrorFromRotation ape detUnitRule
            (gInv * l * self.globalRotation) := by
  have hmat : self.globalRotation.multiplyInverseRot (l * self.globalRotation)
      = gInv * l * self.globalRotation := by
    rw [Rotation.inverse_eq_transposed _ gInv hg hinv, Rotation.multiplyInverseRot,
      Rotation.mul_assoc_rot]
  exact ⟨hmat, by rw [addAlignmentPositionErrorFromLocalRotation, hmat]⟩

end AlignableComposite

/-! ### Record export -/

namespace Alignable

variable {E : Type}

mutual
/-- The records of a subtree are those of its leaves, from left to right. -/
theorem alignments_fst (a : Alignable E) :
    (alignments a).1 = (leaves a).map alignTransform := by
  cases a with
  | detUnit b e => simp [alignments, leaves, alignTransform, base, globalPosition, globalRotation]
  | composite b st cs => simp [alignments, leaves, alignmentsComponents_fst cs []]
/-- The loop appends the records of the leaves of the components. -/
theorem alignmentsComponents_fst (cs : List (Alignable E)) (m : List AlignTransform) :
    (alignmentsComponents cs m).1 = m ++ (leavesList cs).map alignTransform := by
  cases cs with
  | nil => simp [alignmentsComponents, leavesList]
  | cons c cs =>
    simp [alignmentsComponents, leavesList, alignmentsComponents_fst cs, alignments_fst c]
end

mutual
/-- The tree after `alignments()` is the tree before it. -/
theorem alignments_snd (a : Alignable E) : (alignments a).2 = a := by
  cases a with
  | detUnit b e => simp [alignments]
  | composite b st cs => simp [alignments, alignmentsComponents_snd cs []]
/-- The components after the loop of `alignments()` are the components before it. -/
theorem alignmentsComponents_snd (cs : List (Alignable E)) (m : List AlignTransform) :
    (alignmentsComponents cs m).2 = cs := by
  cases cs with
  | nil => simp [alignmentsComponents]
  | cons c cs => simp [alignmentsComponents, alignmentsComponents_snd cs, alignments_snd c]
end

theorem alignmentsComponents_flatMap (cs : List (Alignable E)) (m : List AlignTransform) :
    (alignmentsComponents cs m).1 = m ++ cs.flatMap (fun c => (alignments c).1) := by
  induction cs generalizing m with
  | nil => simp [alignmentsComponents]
  | cons c cs ih => simp [alignmentsComponents, ih]

mutual
/-- The error records of a subtree are those of its leaves, from left to right. -/
theorem alignmentErrors_fst (a : Alignable E) :
    (alignmentErrors a).1.map (fun r => (r.rawId, some r.error))
      = (leaves a).map (fun l => (l.base.theId, l.positionError)) := by
  cases a with
  | detUnit b e => simp [alignmentErrors, leaves, base, positionError]
  | composite b st cs => simpa [alignmentErrors, leaves] using alignmentErrorsComponents_fst cs []
/-- The loop appends the error records of the leaves of the components. -/
theorem alignmentErrorsComponents_fst (cs : List (Alignable E))
    (m : List (AlignTransformError E)) :
    (alignmentErrorsComponents cs m).1.map (fun r => (r.rawId, some r.error))
      = m.map (fun r => (r.rawId, some r.error))
        ++ (leavesList cs).map (fun l => (l.base.theId, l.positionError)) := by
  cases cs with
  | nil => simp [alignmentErrorsComponents, leavesList]
  | cons c cs =>
    simp [alignmentErrorsComponents, leavesList, alignmentErrorsComponents_fst cs,
      alignmentErrors_fst c]
end

mutual
/-- The tree after `alignmentErrors()` is the tree before it. -/
theorem alignmentErrors_snd (a : Alignable E) : (alignmentErrors a).2 = a := by
  cases a with
  | detUnit b e => simp [alignmentErrors]
  | composite b st cs => simp [alignmentErrors, alignmentErrorsComponents_snd cs []]
/-- The components after the loop of `alignmentErrors()` are the components before it. -/
theorem alignmentErrorsComponents_snd (cs : List (Alignable E))
    (m : List (AlignTransformError E)) :
    (alignmentErrorsComponents cs m).2 = cs := by
  cases cs with
  | nil => simp [alignmentErrorsComponents]
  | cons c cs =>
    simp [alignmentErrorsComponents, alignmentErrorsComponents_snd cs, alignmentErrors_snd c]
end

theorem alignmentErrorsComponents_flatMap (cs : List (Alignable E))
    (m : List (AlignTransformError E)) :
    (alignmentErrorsComponents cs m).1 = m ++ cs.flatMap (fun c => (alignmentErrors c).1) := by
  induction cs generalizing m with
  | nil => simp [alignmentErrorsComponents]
  | cons c cs ih => simp [alignmentErrorsComponents, ih]

/-- C14: `alignments()` on a composite is the concatenation, in component
order, of the `alignments()` of its components, the composite adding no record
of its own; so on every tree the result is the list of the records of the
leaves from left to right, as many as there are leaves (also below a composite
with a single component).  `alignmentErrors()` has the same structure for the
error records. -/
theorem alignments_structure (a : Alignable E) :
    (∀ (b : AlignableBase) (st : Nat) (cs : List (Alignable E)),
      (alignments (composite b st cs)).1 = cs.flatMap (fun c => (alignments c).1)) ∧
    (alignments a).1 = (leaves a).map alignTransform ∧
    (alignments a).1.length = (leaves a).length ∧
    (∀ (b : AlignableBase) (st : Nat) (cs : List (Alignable E)),
      (alignmentErrors (composite b st cs)).1 = cs.flatMap (fun c => (alignmentErrors c).1)) ∧
    (alignmentErrors a).1.map (fun r => (r.rawId, some r.error))
      = (leaves a).map (fun l => (l.base.theId, l.positionError)) ∧
    (alignmentErrors a).1.length = (leaves a).length := by
  refine ⟨fun b st cs => by simp [alignments, alignmentsComponents_flatMap],
    alignments_fst a, by simp [alignments_fst],
    fun b st cs => by simp [alignmentErrors, alignmentErrorsComponents_flatMap],
    alignmentErrors_fst a, ?_⟩
  have h := congrArg List.length (alignmentErrors_fst a)
  simpa using h

/-- C15: `alignments()` and `alignmentErrors()` are pure reads: the tree after
the call is the tree before it, and a second call, made on the tree the first
call leaves, returns a collection with the same contents in the same order. -/
theorem alignments_pure (a : Alignable E) :
    (alignments a).2 = a ∧ (alignmentErrors a).2 = a ∧
    (alignments (alignments a).2).1 = (alignments a).1 ∧
    (alignmentErrors (alignmentErrors a).2).1 = (alignmentErrors a).1 := by
  refine ⟨alignments_snd a, alignmentErrors_snd a, ?_, ?_⟩
  · rw [alignments_snd]
  · rw [alignmentErrors_snd]

/-! ### recursiveComponents and the preorder of the descendants -/

theorem preorder_eq (a : Alignable E) : preorder a = a :: descendants a := by
  cases a <;> simp [preorder, descendants, components, preorderList]

mutual
/-- Without single-component composites the flattening is the preorder of the descendants. -/
theorem recursiveComponents_eq_descendants (a : Alignable E) (h : noSingleComponent a = true) :
    recursiveComponents a [] = descendants a := by
  cases a with
  | detUnit b e => simp [recursiveComponents, descendants, components, preorderList]
  | composite b st cs =>
    simp only [noSingleComponent, Bool.and_eq_true, bne_iff_ne, ne_eq] at h
    simp only [recursiveComponents, descendants, components]
    split
    · have hnil : cs = [] := by
        cases cs with
        | nil => rfl
        | cons c cs =>
          cases cs with
          | nil => exact absurd rfl h.1
          | cons c2 cs => simp at *
      simp [hnil, preorderList]
    · rw [recursiveComponentsLoop_append, List.nil_append]
      exact flatMap_recursiveComponents_eq_preorderList cs h.2
/-- The same for a sequence of subtrees. -/
theorem flatMap_recursiveComponents_eq_preorderList (cs : List (Alignable E))
    (h : noSingleComponentList cs = true) :
    cs.flatMap (fun c => c :: recursiveComponents c []) = preorderList cs := by
  cases cs with
  | nil => simp [preorderList]
  | cons c cs =>
    simp only [noSingleComponentList, Bool.and_eq_true] at h
    simp only [List.flatMap_cons, preorderList, preorder_eq,
      recursiveComponents_eq_descendants c h.1,
      flatMap_recursiveComponents_eq_preorderList cs h.2]
end

/-- C16 (amended): on a tree in which no composite has exactly one component,
`recursiveComponents` called on the root with an empty result produces the
depth-first preorder list of the proper descendants of the root, the root
itself not being part of it. -/
theorem recursiveComponents_preorder (a : Alignable E) (h : noSingleComponent a = true) :
    recursiveComponents a [] = descendants a ∧ preorder a = a :: recursiveComponents a [] := by
  rw [recursiveComponents_eq_descendants a h]
  exact ⟨rfl, preorder_eq a⟩

end Alignable

/-- C16 fails as stated: the composite with a single leaf has that leaf as a
proper descendant, and `recursiveComponents` returns the empty list on it. -/
theorem recursiveComponents_preorder_counterexample :
    Alignable.recursiveComponents oneLeaf.toAlignable [] = [] ∧
    (Alignable.descendants oneLeaf.toAlignable).length = 1 ∧
    Alignable.recursiveComponents oneLeaf.toAlignable []
      ≠ Alignable.descendants oneLeaf.toAlignable := by
  have h1 : Alignable.recursiveComponents oneLeaf.toAlignable [] = [] := by
    simp [oneLeaf, AlignableComposite.toAlignable, AlignableComposite.addComponent,
      emptyComposite, Alignable.recursiveComponents]
  have h2 : (Alignable.descendants oneLeaf.toAlignable).length = 1 := by
    simp [oneLeaf, AlignableComposite.toAlignable, AlignableComposite.addComponent,
      emptyComposite, Alignable.descendants, Alignable.components, Alignable.preorderList,
      leafAt, Alignable.setMother, Alignable.preorder]
  refine ⟨h1, h2, fun h => ?_⟩
  rw [h1] at h
  rw [← h] at h2
  simp at h2

/-- The amended C16 on the example composite with two leaves. -/
theorem recursiveComponents_preorder_witness :
    Alignable.recursiveComponents twoLeaves.toAlignable []
        = Alignable.descendants twoLeaves.toAlignable ∧
      Alignable.preorder twoLeaves.toAlignable
        = twoLeaves.toAlignable :: Alignable.recursiveComponents twoLeaves.toAlignable [] :=
  Alignable.recursiveComponents_preorder twoLeaves.toAlignable
    (by simp [twoLeaves, AlignableComposite.toAlignable, AlignableComposite.addComponent,
      emptyComposite, Alignable.noSingleComponent, Alignable.noSingleComponentList, leafAt,
      Alignable.setMother])

/-- C17 fails on the code: with two components and the index `-1` the range
check `i >= size()` is passed and the component vector is indexed outside its
bounds; no logic error is raised. -/
theorem moveComponentLocal_negative_index :
    twoLeaves.moveComponentLocal (-1) ⟨1, 2, 3⟩ = (.error (.outOfBounds (-1)), twoLeaves) := by
  have h : ¬ ((-1 : Int) ≥ twoLeaves.size) := by
    simp [AlignableComposite.size, length_twoLeaves]
  simp only [AlignableComposite.moveComponentLocal, h, if_false]
  rfl

/-! ### The centroid invariant -/

namespace Rotation

theorem multiplyInverse_div (r : Rotation) (v : Vec3) (k : Scalar) :
    r.multiplyInverse (v / k) = r.multiplyInverse v / k := by
  ext <;> simp [multiplyInverse] <;> ring

/-- The sum of the images of a list of points under `v ↦ t + m.multiplyInverse v`. -/
theorem sum_map_affine (t : Vec3) (m : Rotation) (l : List Vec3) :
    (l.map (fun v => t + m.multiplyInverse v)).sum
      = (l.length : Scalar) • t + m.multiplyInverse l.sum := by
  induction l with
  | nil => ext <;> simp [multiplyInverse]
  | cons v l ih =>
    rw [List.map_cons, List.sum_cons, ih, List.sum_cons, multiplyInverse_add]
    ext <;> simp <;> ring

/-- An affine map `v ↦ t + m.multiplyInverse v` takes the mean of a non-empty
list of points to the mean of their images. -/
theorem affine_mean (t : Vec3) (m : Rotation) (l : List Vec3) (hl : l ≠ []) :
    t + m.multiplyInverse (l.sum / (l.length : Scalar))
      = (l.map (fun v => t + m.multiplyInverse v)).sum / (l.length : Scalar) := by
  have hk : (l.length : Scalar) ≠ 0 := by
    have : 0 < l.length := List.length_pos.mpr hl
    exact_mod_cast this.ne'
  rw [sum_map_affine, multiplyInverse_div]
  ext <;> simp <;> field_simp <;> ring

end Rotation

namespace Alignable

variable {E : Type}

theorem nodeAt_snoc (path : List Nat) (i : Nat) (a : Alignable E) :
    a.nodeAt (path ++ [i]) = (a.nodeAt path).bind (fun x => x.components[i]?) := by
  induction path generalizing a with
  | nil =>
    simp only [List.nil_append, nodeAt, Option.some_bind]
    cases a.components[i]? <;> rfl
  | cons j path ih =>
    simp only [List.cons_append, nodeAt]
    cases a.components[j]? with
    | none => rfl
    | some c => exact ih c

/-- When every node of a tree is carried to the image of its position under an
affine map, a node that is the centroid of its components stays so. -/
theorem isCentroid_transport (t : Vec3) (m : Rotation) (a a2 : Alignable E)
    (hpos : ∀ path : List Nat,
      (a2.nodeAt path).map globalPosition
        = (a.nodeAt path).map (fun x => t + m.multiplyInverse x.globalPosition))
    (path : List Nat) (x : Alignable E) (hx : a.nodeAt path = some x) (hc : x.IsCentroid) :
    ∃ x2, a2.nodeAt path = some x2 ∧ x2.IsCentroid := by
  have h0 := hpos path
  rw [hx, Option.map_some'] at h0
  obtain ⟨x2, hx2, hp⟩ := Option.map_eq_some'.mp h0
  have hcomps : x2.components.map globalPosition
      = (x.components.map globalPosition).map (fun v => t + m.multiplyInverse v) := by
    apply List.ext_getElem?
    intro i
    have hi := hpos (path ++ [i])
    rw [nodeAt_snoc, nodeAt_snoc, hx, hx2] at hi
    simpa [List.getElem?_map, Option.map_map, Function.comp_def] using hi
  have hlen : x2.components.length = x.components.length := by
    have := congrArg List.length hcomps
    simpa using this
  refine ⟨x2, hx2, ?_, ?_⟩
  · intro hnil
    rw [hnil] at hlen
    exact hc.1 (List.length_eq_zero.mp hlen.symm)
  · have hne : x.components.map globalPosition ≠ [] := by
      simpa using hc.1
    have hmean := Rotation.affine_mean t m (x.components.map globalPosition) hne
    rw [List.length_map] at hmean
    rw [hp, hc.2, hcomps, hlen]
    exact hmean

/-- C18: a node `x` of the subtree of `a` (possibly `a` itself) whose global
position is the arithmetic mean of the global positions of its components still
has this property after `move(d)` on `a` and after `rotateInGlobalFrame(R)` on
`a`, for every displacement `d` and every rotation `R`. -/
theorem centroid_invariant (a : Alignable E) (path : List Nat) (x : Alignable E)
    (hx : a.nodeAt path = some x) (hc : x.IsCentroid) :
    (∀ d : Vec3, ∃ x2, (move a d).nodeAt path = some x2 ∧ x2.IsCentroid) ∧
    ∀ r : Rotation, ∃ x2, (rotateInGlobalFrame a r).nodeAt path = some x2 ∧ x2.IsCentroid := by
  constructor
  · intro d
    refine isCentroid_transport d 1 a (move a d) (fun p => ?_) path x hx hc
    rw [nodeAt_move, Option.map_map]
    congr 1
    funext n
    simp [globalPosition_move, Rotation.one_multiplyInverse, add_comm]
  · intro r
    refine isCentroid_transport (a.globalPosition - r.multiplyInverse a.globalPosition) r a
      (rotateInGlobalFrame a r) (fun p => ?_) path x hx hc
    have h := congrArg (Option.map Prod.fst) (nodeAt_rotateInGlobalFrame r p a)
    rw [Option.map_map, Option.map_map] at h
    rw [show (globalPosition : Alignable E → Vec3)
        = Prod.fst ∘ (fun x => (x.globalPosition, x.globalRotation)) from rfl, h]
    congr 1
    funext n
    simp only [Function.comp_apply, Rotation.multiplyInverse_sub]
    abel

end Alignable

theorem isCentroid_twoLeaves : twoLeaves.toAlignable.IsCentroid := by
  constructor
  · simp [twoLeaves, AlignableComposite.toAlignable, AlignableComposite.addComponent,
      emptyComposite, Alignable.components]
  · ext <;>
      simp [twoLeaves, AlignableComposite.toAlignable, AlignableComposite.addComponent,
        emptyComposite, Alignable.components, Alignable.globalPosition, Alignable.base, leafAt,
        Alignable.setMother, AlignableBase.moveSurface, AlignableBase.setMother, Surface.move,
        AlignableComposite.globalPosition]
    norm_num

/-- The invariant of C18 on the example composite, which is the centroid of its
two leaves. -/
theorem centroid_invariant_witness :
    (∀ d : Vec3, ∃ x2, (Alignable.move twoLeaves.toAlignable d).nodeAt [] = some x2
      ∧ x2.IsCentroid) ∧
    ∀ r : Rotation, ∃ x2, (Alignable.rotateInGlobalFrame twoLeaves.toAlignable r).nodeAt []
      = some x2 ∧ x2.IsCentroid :=
  Alignable.centroid_invariant twoLeaves.toAlignable [] twoLeaves.toAlignable rfl
    isCentroid_twoLeaves

/-- The equality of C13 on a composite turned by a quarter turn, whose inverse
rotation is the transposed quarter turn. -/
theorem addAlignmentPositionErrorFromLocalRotation_eq_witness :
    turnedComposite.globalRotation.multiplyInverseRot (quarterTurn * turnedComposite.globalRotation)
        = quarterTurn.transposed * quarterTurn * turnedComposite.globalRotation ∧
    turnedComposite.addAlignmentPositionErrorFromLocalRotation Vec3.mk (fun _ e _ => e)
        quarterTurn
      = turnedComposite.toAlignable.addAlignmentPositionErrorFromRotation Vec3.mk
          (fun _ e _ => e)
          (quarterTurn.transposed * quarterTurn * turnedComposite.globalRotation) :=
  AlignableComposite.addAlignmentPositionErrorFromLocalRotation_eq Vec3.mk (fun _ e _ => e)
    turnedComposite quarterTurn quarterTurn.transposed quarterTurn_orthonormal
    quarterTurn_orthonormal.1

end Alignment

/-! ## Properties of the preparation of expressions -/

namespace ClhepEvaluator

theorem special_eq_false (c : Char) :
    special c = false ↔ c ≠ '[' ∧ c ≠ ']' ∧ c ≠ ':' := by
  simp [special, and_assoc]

/-! ### The scan and the grammar -/

theorem illFormedFrom_skip (x rest : List Char) (hx : ∀ c ∈ x, special c = false)
    (isOpen hasColon : Bool) :
    illFormedFrom isOpen hasColon (x ++ rest) = illFormedFrom isOpen hasColon rest := by
  induction x with
  | nil => rfl
  | cons c x ih =>
    have hc := (special_eq_false c).mp (hx c (List.mem_cons_self c x))
    have ih2 := ih (fun d hd => hx d (List.mem_cons_of_mem c hd))
    simp [illFormedFrom, hc.1, hc.2.1, hc.2.2, ih2]

theorem illFormedFrom_source (p : Piece) (hp : p.WellFormed) (rest : List Char) :
    illFormedFrom false false (p.source ++ rest) = illFormedFrom false false rest := by
  cases p with
  | plain c =>
    have hc := (special_eq_false c).mp hp
    simp [Piece.source, illFormedFrom, hc.1, hc.2.1, hc.2.2]
  | unqualified x =>
    have h1 : illFormedFrom true false (x ++ (']' :: rest))
        = illFormedFrom true false (']' :: rest) := illFormedFrom_skip x _ hp true false
    simp [Piece.source, illFormedFrom, h1]
  | qualified n x =>
    have h1 : illFormedFrom true false (n ++ (':' :: (x ++ (']' :: rest))))
        = illFormedFrom true false (':' :: (x ++ (']' :: rest))) :=
      illFormedFrom_skip n _ hp.1 true false
    have h2 : illFormedFrom true true (x ++ (']' :: rest))
        = illFormedFrom true true (']' :: rest) := illFormedFrom_skip x _ hp.2 true true
    simp [Piece.source, illFormedFrom, h1, h2]

/-- A concatenation of well-formed pieces passes the scan. -/
theorem illFormedFrom_of_pieces (ps : List Piece) (hps : ∀ p ∈ ps, p.WellFormed) :
    illFormedFrom false false (ps.flatMap Piece.source) = false := by
  induction ps with
  | nil => rfl
  | cons p ps ih =>
    rw [List.flatMap_cons, illFormedFrom_source p (hps p (List.mem_cons_self p ps))]
    exact ih (fun q hq => hps q (List.mem_cons_of_mem p hq))

theorem wellFormed_nil : WellFormed [] := ⟨[], by simp, rfl⟩

theorem wellFormed_cons_piece (p : Piece) (hp : p.WellFormed) (rest : List Char)
    (hrest : WellFormed rest) : WellFormed (p.source ++ rest) := by
  obtain ⟨ps, hps, rfl⟩ := hrest
  refine ⟨p :: ps, ?_, by simp⟩
  intro q hq
  rcases List.mem_cons.mp hq with rfl | hq
  · exact hp
  · exact hps q hq

/-- What the scan has accepted when it started inside a bracket without a `:`:
the rest of a group and then a well-formed expression. -/
def OpenTail (e : List Char) : Prop :=
  ∃ x rest, (∀ c ∈ x, special c = false) ∧ WellFormed rest ∧
    (e = x ++ ']' :: rest ∨
      ∃ y, (∀ c ∈ y, special c = false) ∧ e = x ++ ':' :: (y ++ ']' :: rest))

/-- What the scan has accepted when it started inside a bracket after its `:`. -/
def ColonTail (e : List Char) : Prop :=
  ∃ y rest, (∀ c ∈ y, special c = false) ∧ WellFormed rest ∧ e = y ++ ']' :: rest

theorem wellFormed_of_openTail (e : List Char) (h : OpenTail e) : WellFormed ('[' :: e) := by
  obtain ⟨x, rest, hx, hrest, h | ⟨y, hy, h⟩⟩ := h
  · have := wellFormed_cons_piece (.unqualified x) hx rest hrest
    simpa [Piece.source, h] using this
  · have := wellFormed_cons_piece (.qualified x y) ⟨hx, hy⟩ rest hrest
    simpa [Piece.source, h] using this

/-- The scan accepts only what the grammar describes, from each of its states. -/
theorem grammar_of_illFormedFrom (e : List Char) :
    (illFormedFrom false false e = false → WellFormed e) ∧
    (illFormedFrom true false e = false → OpenTail e) ∧
    (illFormedFrom true true e = false → ColonTail e) := by
  induction e with
  | nil => exact ⟨fun _ => wellFormed_nil, by simp [illFormedFrom], by simp [illFormedFrom]⟩
  | cons c cs ih =>
    obtain ⟨ih1, ih2, ih3⟩ := ih
    by_cases h1 : c = '['
    · subst h1
      refine ⟨fun h => ?_, by simp [illFormedFrom], by simp [illFormedFrom]⟩
      exact wellFormed_of_openTail cs (ih2 (by simpa [illFormedFrom] using h))
    by_cases h2 : c = ']'
    · subst h2
      refine ⟨by simp [illFormedFrom], fun h => ?_, fun h => ?_⟩
      · exact ⟨[], cs, by simp, ih1 (by simpa [illFormedFrom] using h), Or.inl rfl⟩
      · exact ⟨[], cs, by simp, ih1 (by simpa [illFormedFrom] using h), rfl⟩
    by_cases h3 : c = ':'
    · subst h3
      refine ⟨by simp [illFormedFrom], fun h => ?_, by simp [illFormedFrom]⟩
      obtain ⟨y, rest, hy, hrest, hcs⟩ := ih3 (by simpa [illFormedFrom] using h)
      exact ⟨[], rest, by simp, hrest, Or.inr ⟨y, hy, by simp [hcs]⟩⟩
    · have hc : special c = false := (special_eq_false c).mpr ⟨h1, h2, h3⟩
      have hmem : ∀ x : List Char, (∀ d ∈ x, special d = false) →
          ∀ d ∈ c :: x, special d = false := by
        intro x hx d hd
        rcases List.mem_cons.mp hd with rfl | hd
        · exact hc
        · exact hx d hd
      refine ⟨fun h => ?_, fun h => ?_, fun h => ?_⟩
      · have := wellFormed_cons_piece (.plain c) hc cs
          (ih1 (by simpa [illFormedFrom, h1, h2, h3] using h))
        simpa [Piece.source] using this
      · obtain ⟨x, rest, hx, hrest, hcs | ⟨y, hy, hcs⟩⟩ :=
          ih2 (by simpa [illFormedFrom, h1, h2, h3] using h)
        · exact ⟨c :: x, rest, hmem x hx, hrest, Or.inl (by simp [hcs])⟩
        · exact ⟨c :: x, rest, hmem x hx, hrest, Or.inr ⟨y, hy, by simp [hcs]⟩⟩
      · obtain ⟨y, rest, hy, hrest, hcs⟩ :=
          ih3 (by simpa [illFormedFrom, h1, h2, h3] using h)
        exact ⟨c :: y, rest, hmem y hy, hrest, by simp [hcs]⟩

/-- The scan finds no fault exactly in the expressions of the grammar. -/
theorem wellFormed_iff_scan (e : List Char) :
    WellFormed e ↔ illFormedFrom false false e = false := by
  constructor
  · rintro ⟨ps, hps, rfl⟩
    exact illFormedFrom_of_pieces ps hps
  · exact (grammar_of_illFormedFrom e).1

/-! ### Pass 1 -/

theorem pass1Step_plain (ns name ev : List Char) (s : Scan) (c : Char) (idx : Nat)
    (hc : special c = false) : pass1Step ns name ev s c idx = .ok s := by
  have h := (special_eq_false c).mp hc
  simp [pass1Step, h.1, h.2.1, h.2.2]

theorem pass1Step_error (ns name ev : List Char) (s : Scan) (c : Char) (idx : Nat)
    (f : Failure) (h : pass1Step ns name ev s c idx = .error f) :
    ∃ msg, f = .ddException msg := by
  unfold pass1Step at h
  split_ifs at h <;> (injection h with h; exact ⟨_, h.symm⟩)

/-- Pass 1 fails only with a `DDException`. -/
theorem pass1Loop_error (ns name ev : List Char) (cs : List Char) (idx : Nat) (s : Scan)
    (f : Failure) (h : pass1Loop ns name ev cs idx s = .error f) :
    ∃ msg, f = .ddException msg := by
  induction cs generalizing idx s with
  | nil => simp [pass1Loop] at h
  | cons c cs ih =>
    unfold pass1Loop at h
    cases hstep : pass1Step ns name ev s c idx with
    | error g =>
      rw [hstep] at h
      injection h with h
      subst h
      exact pass1Step_error ns name ev s c idx g hstep
    | ok s2 =>
      rw [hstep] at h
      exact ih (idx + 1) s2 h

/-- The loop of pass 1 ends with every bracket closed exactly when the scan
finds no fault. -/
theorem pass1Loop_ok_iff (ns name ev : List Char) (cs : List Char) (idx : Nat)
    (isOpen hasColon : Bool) (vc : Nat) (hasNs : List Nat)
    (hinv : hasColon = true → isOpen = true) :
    (∃ s2, pass1Loop ns name ev cs idx ⟨isOpen, hasColon, vc, hasNs⟩ = .ok s2
        ∧ s2.insideBracket = false ∧ s2.nsFound = false)
      ↔ illFormedFrom isOpen hasColon cs = false := by
  induction cs generalizing idx isOpen hasColon vc hasNs with
  | nil =>
    cases isOpen <;> cases hasColon <;> simp [pass1Loop, illFormedFrom] at hinv ⊢
  | cons c cs ih =>
    by_cases h1 : c = '['
    · subst h1
      cases isOpen <;> cases hasColon <;>
        simp [pass1Loop, pass1Step, illFormedFrom] at hinv ⊢
      exact ih (idx + 1) true false (vc + 1) hasNs (by simp)
    by_cases h2 : c = ']'
    · subst h2
      cases isOpen <;> cases hasColon <;>
        simp [pass1Loop, pass1Step, illFormedFrom] at hinv ⊢
      · exact ih (idx + 1) false false vc (hasNs ++ [0]) (by simp)
      · exact ih (idx + 1) false false vc (hasNs ++ [1]) (by simp)
    by_cases h3 : c = ':'
    · subst h3
      cases isOpen <;> cases hasColon <;>
        simp [pass1Loop, pass1Step, illFormedFrom] at hinv ⊢
      exact ih (idx + 1) true true vc hasNs (by simp)
    · simp only [pass1Loop, pass1Step, illFormedFrom, h1, h2, h3, if_false]
      exact ih (idx + 1) isOpen hasColon vc hasNs hinv

/-- Pass 1 accepts exactly the expressions in which the scan finds no fault. -/
theorem pass1_ok_iff (ns name e : List Char) :
    (∃ s, pass1 ns name e = .ok s) ↔ illFormedFrom false false e = false := by
  rw [← pass1Loop_ok_iff ns name e e 0 false false 0 [0] (by simp)]
  unfold pass1
  cases hloop : pass1Loop ns name e e 0 ⟨false, false, 0, [0]⟩ with
  | error f => simp
  | ok s =>
    cases hi : s.insideBracket <;> cases hn : s.nsFound <;> simp [hi, hn]

/-- Pass 1 raises a `DDException` on the expressions in which the scan finds a fault. -/
theorem pass1_error_of_illFormed (ns name e : List Char)
    (h : illFormedFrom false false e = true) :
    ∃ msg, pass1 ns name e = .error (.ddException msg) := by
  cases hp : pass1 ns name e with
  | ok s =>
    have := (pass1_ok_iff ns name e).mp ⟨s, hp⟩
    rw [h] at this
    exact absurd this (by simp)
  | error f =>
    unfold pass1 at hp
    cases hloop : pass1Loop ns name e e 0 ⟨false, false, 0, [0]⟩ with
    | error g =>
      rw [hloop] at hp
      injection hp with hp
      subst hp
      obtain ⟨msg, hmsg⟩ := pass1Loop_error ns name e e 0 _ g hloop
      exact ⟨msg, by rw [hmsg]⟩
    | ok s =>
      rw [hloop] at hp
      simp only at hp
      split_ifs at hp
      injection hp with hp
      exact ⟨_, by rw [← hp]; rfl⟩

theorem pass1Loop_skip (ns name ev : List Char) (x rest : List Char)
    (hx : ∀ c ∈ x, special c = false) (idx : Nat) (s : Scan) :
    ∃ idx2, pass1Loop ns name ev (x ++ rest) idx s = pass1Loop ns name ev rest idx2 s := by
  induction x generalizing idx with
  | nil => exact ⟨idx, rfl⟩
  | cons c x ih =>
    obtain ⟨idx2, h⟩ := ih (fun d hd => hx d (List.mem_cons_of_mem c hd)) (idx + 1)
    refine ⟨idx2, ?_⟩
    simp only [List.cons_append, pass1Loop,
      pass1Step_plain ns name ev s c idx (hx c (List.mem_cons_self c x))]
    exact h

theorem pass1Loop_cons_ok (ns name ev : List Char) (c : Char) (cs : List Char) (idx : Nat)
    (s s2 : Scan) (h : pass1Step ns name ev s c idx = .ok s2) :
    pass1Loop ns name ev (c :: cs) idx s = pass1Loop ns name ev cs (idx + 1) s2 := by
  simp [pass1Loop, h]

/-- Pass 1 over one well-formed piece, from outside any bracket: the mark of
the piece is appended to `hasNs`. -/
theorem pass1Loop_source (ns name ev : List Char) (p : Piece) (hp : p.WellFormed)
    (rest : List Char) (idx vc : Nat) (hasNs : List Nat) :
    ∃ idx2, pass1Loop ns name ev (p.source ++ rest) idx ⟨false, false, vc, hasNs⟩
      = pass1Loop ns name ev rest idx2
          ⟨false, false, vc + p.mark.length, hasNs ++ p.mark⟩ := by
  cases p with
  | plain c =>
    exact ⟨idx + 1, by simp [Piece.source, Piece.mark, pass1Loop, pass1Step_plain _ _ _ _ _ _ hp]⟩
  | unqualified x =>
    obtain ⟨i2, h2⟩ := pass1Loop_skip ns name ev x (']' :: rest) hp (idx + 1)
      ⟨true, false, vc + 1, hasNs⟩
    refine ⟨i2 + 1, ?_⟩
    have hsrc : (Piece.unqualified x).source ++ rest = '[' :: (x ++ ']' :: rest) := by
      simp [Piece.source]
    rw [hsrc,
      pass1Loop_cons_ok ns name ev '[' _ idx _ ⟨true, false, vc + 1, hasNs⟩
        (by simp [pass1Step]),
      h2,
      pass1Loop_cons_ok ns name ev ']' _ i2 _ ⟨false, false, vc + 1, hasNs ++ [0]⟩
        (by simp [pass1Step])]
    rfl
  | qualified n x =>
    obtain ⟨i2, h2⟩ := pass1Loop_skip ns name ev n (':' :: (x ++ ']' :: rest)) hp.1 (idx + 1)
      ⟨true, false, vc + 1, hasNs⟩
    obtain ⟨i3, h3⟩ := pass1Loop_skip ns name ev x (']' :: rest) hp.2 (i2 + 1)
      ⟨true, true, vc + 1, hasNs⟩
    refine ⟨i3 + 1, ?_⟩
    have hsrc : (Piece.qualified n x).source ++ rest
        = '[' :: (n ++ ':' :: (x ++ ']' :: rest)) := by
      simp [Piece.source]
    rw [hsrc,
      pass1Loop_cons_ok ns name ev '[' _ idx _ ⟨true, false, vc + 1, hasNs⟩
        (by simp [pass1Step]),
      h2,
      pass1Loop_cons_ok ns name ev ':' _ i2 _ ⟨true, true, vc + 1, hasNs⟩
        (by simp [pass1Step]),
      h3,
      pass1Loop_cons_ok ns name ev ']' _ i3 _ ⟨false, false, vc + 1, hasNs ++ [1]⟩
        (by simp [pass1Step])]
    rfl

/-- Pass 1 over a concatenation of well-formed pieces collects their marks. -/
theorem pass1Loop_pieces (ns name ev : List Char) (ps : List Piece)
    (hps : ∀ p ∈ ps, p.WellFormed) (idx vc : Nat) (hasNs : List Nat) :
    pass1Loop ns name ev (ps.flatMap Piece.source) idx ⟨false, false, vc, hasNs⟩
      = .ok ⟨false, false, vc + (ps.flatMap Piece.mark).length,
          hasNs ++ ps.flatMap Piece.mark⟩ := by
  induction ps generalizing idx vc hasNs with
  | nil => simp [pass1Loop]
  | cons p ps ih =>
    obtain ⟨idx2, h⟩ := pass1Loop_source ns name ev p (hps p (List.mem_cons_self p ps))
      (ps.flatMap Piece.source) idx vc hasNs
    rw [List.flatMap_cons, h, ih (fun q hq => hps q (List.mem_cons_of_mem p hq))]
    simp [Nat.add_assoc]

theorem pass1_pieces (ns name : List Char) (ps : List Piece) (hps : ∀ p ∈ ps, p.WellFormed) :
    pass1 ns name (ps.flatMap Piece.source)
      = .ok ⟨false, false, 0 + (ps.flatMap Piece.mark).length, [0] ++ ps.flatMap Piece.mark⟩ := by
  unfold pass1
  rw [pass1Loop_pieces ns name _ ps hps]
  simp

/-! ### Pass 2 -/

theorem pass2Loop_skip (ns : List Char) (hasNs : List Nat) (x rest : List Char)
    (hx : ∀ c ∈ x, special c = false) (vc : Nat) (v : List Char) :
    pass2Loop ns hasNs (x ++ rest) vc v = pass2Loop ns hasNs rest vc (v ++ x) := by
  induction x generalizing v with
  | nil => simp
  | cons c x ih =>
    have hc := (special_eq_false c).mp (hx c (List.mem_cons_self c x))
    rw [List.cons_append, pass2Loop]
    simp only [hc.1, hc.2.1, hc.2.2, if_false]
    rw [ih (fun d hd => hx d (List.mem_cons_of_mem c hd))]
    simp

theorem pass2Loop_open (ns : List Char) (hasNs : List Nat) (cs : List Char) (vc : Nat)
    (v : List Char) (m : Nat) (hm : hasNs[vc + 1]? = some m) :
    pass2Loop ns hasNs ('[' :: cs) vc v
      = pass2Loop ns hasNs cs (vc + 1) (if m = 0 then v ++ ns ++ sep else v) := by
  simp [pass2Loop, hm]

theorem pass2Loop_close (ns : List Char) (hasNs : List Nat) (cs : List Char) (vc : Nat)
    (v : List Char) :
    pass2Loop ns hasNs (']' :: cs) vc v = pass2Loop ns hasNs cs vc v := by
  simp [pass2Loop]

theorem pass2Loop_colon (ns : List Char) (hasNs : List Nat) (cs : List Char) (vc : Nat)
    (v : List Char) :
    pass2Loop ns hasNs (':' :: cs) vc v = pass2Loop ns hasNs cs vc (v ++ sep) := by
  simp [pass2Loop]

/-- Pass 2 over one well-formed piece whose mark is found in `hasNs`: the
replacement of the piece is appended to `valResult`. -/
theorem pass2Loop_source (ns : List Char) (hasNs : List Nat) (p : Piece) (hp : p.WellFormed)
    (rest : List Char) (vc : Nat) (v : List Char)
    (hmark : ∀ m ∈ p.mark, hasNs[vc + 1]? = some m) :
    pass2Loop ns hasNs (p.source ++ rest) vc v
      = pass2Loop ns hasNs rest (vc + p.mark.length) (v ++ p.replaced ns) := by
  cases p with
  | plain c =>
    have hc := (special_eq_false c).mp hp
    simp [Piece.source, Piece.mark, Piece.replaced, pass2Loop, hc.1, hc.2.1, hc.2.2]
  | unqualified x =>
    have hsrc : (Piece.unqualified x).source ++ rest = '[' :: (x ++ ']' :: rest) := by
      simp [Piece.source]
    rw [hsrc, pass2Loop_open ns hasNs _ vc v 0 (hmark 0 (by simp [Piece.mark])),
      pass2Loop_skip ns hasNs x _ hp, pass2Loop_close]
    simp [Piece.mark, Piece.replaced]
  | qualified n x =>
    have hsrc : (Piece.qualified n x).source ++ rest
        = '[' :: (n ++ ':' :: (x ++ ']' :: rest)) := by
      simp [Piece.source]
    rw [hsrc, pass2Loop_open ns hasNs _ vc v 1 (hmark 1 (by simp [Piece.mark])),
      pass2Loop_skip ns hasNs n _ hp.1, pass2Loop_colon,
      pass2Loop_skip ns hasNs x _ hp.2, pass2Loop_close]
    simp [Piece.mark, Piece.replaced]

/-- Pass 2 over a concatenation of well-formed pieces, with the marks pass 1
left for them in `hasNs` after the `varCount + 1` entries already used. -/
theorem pass2Loop_pieces (ns : List Char) (ps : List Piece) (hps : ∀ p ∈ ps, p.WellFormed)
    (used : List Nat) (vc : Nat) (v : List Char) (hused : used.length = vc + 1) :
    pass2Loop ns (used ++ ps.flatMap Piece.mark) (ps.flatMap Piece.source) vc v
      = .ok (v ++ ps.flatMap (Piece.replaced ns)) := by
  induction ps generalizing used vc v with
  | nil => simp [pass2Loop]
  | cons p ps ih =>
    have hmark : ∀ m ∈ p.mark,
        (used ++ (p :: ps).flatMap Piece.mark)[vc + 1]? = some m := by
      intro m hm
      rw [List.getElem?_append_right (by omega), hused]
      cases p <;> simp [Piece.mark] at hm ⊢ <;> exact hm.symm
    rw [List.flatMap_cons (f := Piece.source),
      pass2Loop_source ns _ p (hps p (List.mem_cons_self p ps)) _ vc v hmark]
    have hassoc : used ++ (p :: ps).flatMap Piece.mark
        = (used ++ p.mark) ++ ps.flatMap Piece.mark := by simp
    rw [hassoc, ih (fun q hq => hps q (List.mem_cons_of_mem p hq)) (used ++ p.mark)
      (vc + p.mark.length) _ (by simp [hused]; omega)]
    simp

/-- `prepare` on a concatenation of well-formed pieces. -/
theorem prepare_pieces (ns name : List Char) (ps : List Piece) (hps : ∀ p ∈ ps, p.WellFormed)
    (v : List Char) :
    prepare ns name (ps.flatMap Piece.source) v
      = .ok (ns ++ sep ++ name, v ++ ps.flatMap (Piece.replaced ns)) := by
  unfold prepare
  rw [pass1_pieces ns name ps hps]
  simp only
  rw [pass2Loop_pieces ns ps hps [0] 0 v rfl]

theorem flatMap_plain_source (e : List Char) :
    (e.map Piece.plain).flatMap Piece.source = e := by
  induction e with
  | nil => rfl
  | cons c e ih => simp [Piece.source, ih]

theorem flatMap_plain_replaced (ns e : List Char) :
    (e.map Piece.plain).flatMap (Piece.replaced ns) = e := by
  induction e with
  | nil => rfl
  | cons c e ih => simp [Piece.replaced, ih]

/-- C19: when pass 1 of `prepare` accepts the expression `e` and `valResult`
is empty on entry, `prepare` completes (every `hasNs[varCount]` of pass 2 is
inside the vector) with `nameResult = ns + "___" + name` and with `valResult`
the expression in which every group `[x]` is replaced by `ns + "___" + x`,
every group `[n:x]` by `n + "___" + x` and every other character is copied in
order; an expression without `[`, `]` and `:` is returned unchanged. -/
theorem prepare_replaces (ns name e : List Char) (h : ∃ s, pass1 ns name e = .ok s) :
    (∃ ps : List Piece, (∀ p ∈ ps, p.WellFormed) ∧ e = ps.flatMap Piece.source ∧
      prepare ns name e [] = .ok (ns ++ sep ++ name, ps.flatMap (Piece.replaced ns))) ∧
    ((∀ c ∈ e, special c = false) → prepare ns name e [] = .ok (ns ++ sep ++ name, e)) := by
  constructor
  · obtain ⟨ps, hps, rfl⟩ := (wellFormed_iff_scan e).mpr ((pass1_ok_iff ns name e).mp h)
    exact ⟨ps, hps, rfl, by simpa using prepare_pieces ns name ps hps []⟩
  · intro hplain
    have hps : ∀ p ∈ e.map Piece.plain, p.WellFormed := by
      intro p hp
      obtain ⟨c, hc, rfl⟩ := List.mem_map.mp hp
      exact hplain c hc
    have := prepare_pieces ns name (e.map Piece.plain) hps []
    simpa [flatMap_plain_source, flatMap_plain_replaced] using this

/-- C20: `prepare` raises a `DDException` exactly on the expressions in which
the left-to-right scan finds a `[` while a bracket is open, a `]` with no open
bracket, a `:` outside a bracket, a second `:` inside the same bracket, or the
end with a bracket still open; and it succeeds exactly on the concatenations
of characters other than `[`, `]`, `:` and of groups `[x]` and `[n:x]` whose
parts contain none of these three characters. -/
theorem prepare_raises_iff (ns name e valResult : List Char) :
    ((∃ msg, prepare ns name e valResult = .error (.ddException msg)) ↔ IllFormed e) ∧
    ((∃ r, prepare ns name e valResult = .ok r) ↔ WellFormed e) ∧
    (IllFormed e ↔ ¬ WellFormed e) := by
  have hdich : IllFormed e ↔ ¬ WellFormed e := by
    rw [wellFormed_iff_scan, IllFormed]
    cases illFormedFrom false false e <;> simp
  have hgood : WellFormed e →
      ∃ r, prepare ns name e valResult = .ok r := by
    rintro ⟨ps, hps, rfl⟩
    exact ⟨_, prepare_pieces ns name ps hps valResult⟩
  have hbad : IllFormed e → ∃ msg, prepare ns name e valResult = .error (.ddException msg) := by
    intro hill
    obtain ⟨msg, hmsg⟩ := pass1_error_of_illFormed ns name e hill
    exact ⟨msg, by simp [prepare, hmsg]⟩
  refine ⟨⟨fun hraise => ?_, hbad⟩, ⟨fun hok => ?_, hgood⟩, hdich⟩
  · by_contra hnot
    obtain ⟨r, hr⟩ := hgood (by_contra fun hw => hnot (hdich.mpr hw))
    obtain ⟨msg, hmsg⟩ := hraise
    rw [hr] at hmsg
    exact absurd hmsg (by simp)
  · by_contra hnot
    obtain ⟨msg, hmsg⟩ := hbad (hdich.mpr hnot)
    obtain ⟨r, hr⟩ := hok
    rw [hr] at hmsg
    exact absurd hmsg (by simp)

/-- The example of C19: with `ns = "ns"` the expression `[a]+[b:c]` becomes
`ns___a+b___c`. -/
theorem prepare_replaces_witness :
    prepare "ns".toList "nm".toList "[a]+[b:c]".toList []
        = .ok ("ns___nm".toList, "ns___a+b___c".toList) ∧
    ((∃ ps : List Piece, (∀ p ∈ ps, p.WellFormed) ∧
        "[a]+[b:c]".toList = ps.flatMap Piece.source ∧
        prepare "ns".toList "nm".toList "[a]+[b:c]".toList []
          = .ok ("ns".toList ++ sep ++ "nm".toList, ps.flatMap (Piece.replaced "ns".toList))) ∧
      ((∀ c ∈ "[a]+[b:c]".toList, special c = false) →
        prepare "ns".toList "nm".toList "[a]+[b:c]".toList []
          = .ok ("ns".toList ++ sep ++ "nm".toList, "[a]+[b:c]".toList))) :=
  ⟨rfl, prepare_replaces "ns".toList "nm".toList "[a]+[b:c]".toList ⟨_, rfl⟩⟩

/-! ### checkname -/

theorem checknameCase_iff (c : Char) : checknameCase c = true ↔ c ∈ forbiddenCharacters := by
  simp [checknameCase, forbiddenCharacters, or_assoc]

/-- The loop over the first `sz` characters succeeds when none of them is forbidden. -/
theorem checknameLoop_ok (s : List Char) (sz : Nat) (hsz : sz ≤ s.length)
    (hall : ∀ c ∈ s.take sz, c ∉ forbiddenCharacters) : checknameLoop s sz = .ok () := by
  induction sz with
  | zero => rfl
  | succ n ih =>
    have hn : n < s.length := hsz
    have hmem : s[n] ∈ s.take (n + 1) := by
      rw [List.mem_iff_getElem]
      exact ⟨n, by simp [List.length_take]; omega, by simp⟩
    have hcase : checknameCase s[n] = false := by
      have := hall _ hmem
      rw [← checknameCase_iff] at this
      simpa using this
    rw [checknameLoop, List.getElem?_eq_getElem hn]
    simp only [hcase, Bool.false_eq_true, if_false]
    refine ih (Nat.le_of_lt hn) (fun c hc => hall c ?_)
    rw [List.take_succ]
    exact List.mem_append_left _ hc

/-- The loop over the first `sz` characters raises a `DDException` when one of
them is forbidden. -/
theorem checknameLoop_raises (s : List Char) (sz : Nat) (hsz : sz ≤ s.length)
    (hex : ∃ c ∈ s.take sz, c ∈ forbiddenCharacters) :
    ∃ msg, checknameLoop s sz = .error (.ddException msg) := by
  induction sz with
  | zero => simp at hex
  | succ n ih =>
    have hn : n < s.length := hsz
    rw [checknameLoop, List.getElem?_eq_getElem hn]
    by_cases hcase : checknameCase s[n] = true
    · simp only [hcase, if_true]
      exact ⟨_, rfl⟩
    · simp only [hcase, Bool.false_eq_true, if_false]
      obtain ⟨c, hc, hforb⟩ := hex
      rw [List.take_succ, List.getElem?_eq_getElem hn] at hc
      rcases List.mem_append.mp hc with hc | hc
      · exact ih (Nat.le_of_lt hn) ⟨c, hc, hforb⟩
      · have hceq : c = s[n] := by simpa using hc
        rw [hceq, ← checknameCase_iff] at hforb
        exact absurd hforb hcase

/-- C21: `checkname(s)` raises a `DDException` exactly when `s` contains one of
the twelve forbidden characters `]`, `[`, blank, `:`, newline, tab, `&`, `*`,
`+`, `-`, `/`, `^`, and returns without error on every other string; the empty
string is accepted, and `.` is not a forbidden character, so a name made of
accepted characters and dots is accepted. -/
theorem checkname_raises_iff (s : List Char) :
    ((∃ msg, checkname s = .error (.ddException msg)) ↔ ∃ c ∈ s, c ∈ forbiddenCharacters) ∧
    (checkname s = .ok () ↔ ∀ c ∈ s, c ∉ forbiddenCharacters) ∧
    checkname [] = .ok () ∧
    ((∀ c ∈ s, c = '.' ∨ c ∉ forbiddenCharacters) → checkname s = .ok ()) := by
  have hgood : (∀ c ∈ s, c ∉ forbiddenCharacters) → checkname s = .ok () := by
    intro hall
    exact checknameLoop_ok s s.length (Nat.le_refl _) (by simpa using hall)
  have hbad : (∃ c ∈ s, c ∈ forbiddenCharacters) →
      ∃ msg, checkname s = .error (.ddException msg) := by
    intro hex
    exact checknameLoop_raises s s.length (Nat.le_refl _) (by simpa using hex)
  refine ⟨⟨fun hraise => ?_, hbad⟩, ⟨fun hok => ?_, hgood⟩, rfl, fun hdot => ?_⟩
  · by_contra hnot
    have hall : ∀ c ∈ s, c ∉ forbiddenCharacters := fun c hc hf => hnot ⟨c, hc, hf⟩
    obtain ⟨msg, hmsg⟩ := hraise
    rw [hgood hall] at hmsg
    exact absurd hmsg (by simp)
  · intro c hc hf
    obtain ⟨msg, hmsg⟩ := hbad ⟨c, hc, hf⟩
    rw [hok] at hmsg
    exact absurd hmsg (by simp)
  · refine hgood (fun c hc => ?_)
    rcases hdot c hc with rfl | h
    · simp [forbiddenCharacters]
    · exact h

end ClhepEvaluator
